import Mathlib

/-!
# flowdb-go command-line parser (src/cli/parser.go, src/cli/commands.go, src/cli/cli.go,
src/cli/helpers.go)

A shallow embedding of the tokenizer, the command registry, the longest-prefix
matcher, the reflective argument binder and the key-masking helper `maskKey`.

Modelling conventions.

* A Go string is the sequence of its runes, `Str = List Char`.  `tokenize`
  ranges over the runes of the line and writes runes back, and the byte-level
  helpers used by `parseArgs` only look for ASCII characters, so on valid
  UTF-8 text the rune view is exact.
* `unicode.ToLower` (standard library, not part of the repository) is a
  parameter `lower : Char → Char`; `strings.ToLower` maps it over the runes.
  Concrete evaluations instantiate it with `Char.toLower`, which agrees with
  Go on ASCII text.
* A Go `map[string]string` that is only written and looked up is a function
  `Str → Option Str`.
* A struct value seen through `reflect` is a list of fields in declaration
  order, each with its name, its `cli` tag, its kind, whether it can be set,
  and its current value.
* A panic is `none`; an `error` result is a value of `Error`, one constructor
  per message format used in parser.go.
-/

namespace FlowDB

/-- Text: the runes of a Go string, in order. -/
abbrev Str := List Char

/-- The space character U+0020. -/
def space : Char := Char.ofNat 32

/-- The horizontal tab U+0009. -/
def tab : Char := Char.ofNat 9

/-- The double quote U+0022. -/
def dquote : Char := Char.ofNat 34

/-- The single quote U+0027. -/
def squote : Char := Char.ofNat 39

/-- The equals sign U+003D. -/
def eqSign : Char := Char.ofNat 61

/-- First case of the switch in `tokenize` (parser.go:94): space or tab. -/
def isBlank (r : Char) : Bool := r == space || r == tab

/-- Second case of the switch in `tokenize` (parser.go:101): a quote delimiter. -/
def isQuote (r : Char) : Bool := r == dquote || r == squote

/-- Go `unicode.IsSpace`: the Latin-1 spaces and the other code points with the
White_Space property. -/
def isSpace (r : Char) : Bool :=
  let n := r.toNat
  (9 ≤ n && n ≤ 13) || n == 32 || n == 0x85 || n == 0xA0 || n == 0x1680 ||
  (0x2000 ≤ n && n ≤ 0x200a) || n == 0x2028 || n == 0x2029 || n == 0x202f ||
  n == 0x205f || n == 0x3000

/-- Go `strings.ToLower` on valid text: `unicode.ToLower` applied to every rune. -/
def ToLower (lower : Char → Char) (s : Str) : Str := s.map lower

/-- The pieces of `s` between separator characters, the empty pieces dropped:
the maximal runs of non-separator characters, in order. -/
def splitRuns (sep : Char → Bool) (s : Str) : List Str :=
  (s.splitOnP sep).filter (fun w => !w.isEmpty)

/-- Go `strings.Fields`: split around runs of white space. -/
def Fields (s : Str) : List Str := splitRuns isSpace s

/-! ## Tokenizer (parser.go:86-120) -/

/-- The local variables of `tokenize`: `tokens`, `cur`, `inQuotes`, `quoteChar`. -/
structure TokState where
  tokens : List Str
  cur : Str
  inQuotes : Bool
  quoteChar : Char
deriving DecidableEq, Repr

/-- The initial values of the locals of `tokenize` (parser.go:87-90). -/
def TokState.init : TokState := ⟨[], [], false, Char.ofNat 0⟩

/-- One iteration of the loop of `tokenize` on rune `r` (parser.go:93-114). -/
def tokStep (s : TokState) (r : Char) : TokState :=
  if isBlank r then
    if s.inQuotes then { s with cur := s.cur ++ [r] }
    else if s.cur.length > 0 then { s with tokens := s.tokens ++ [s.cur], cur := [] }
    else s
  else if isQuote r then
    if s.inQuotes then
      if r = s.quoteChar then { s with inQuotes := false }
      else { s with cur := s.cur ++ [r] }
    else { s with inQuotes := true, quoteChar := r }
  else { s with cur := s.cur ++ [r] }

/-- The code after the loop of `tokenize` (parser.go:116-119): flush `cur`. -/
def TokState.finish (s : TokState) : List Str :=
  if s.cur.length > 0 then s.tokens ++ [s.cur] else s.tokens

/-- Go `tokenize` (parser.go:86). -/
def tokenize (line : Str) : List Str :=
  (line.foldl tokStep TokState.init).finish

/-! ## Key/value map and `parseArgs` (parser.go:122-139) -/

/-- A Go `map[string]string`, seen through its lookups. -/
abbrev KV := Str → Option Str

/-- The empty map, `make(map[string]string)`. -/
def KV.empty : KV := fun _ => none

/-- The assignment `m[k] = v`. -/
def KV.set (m : KV) (k v : Str) : KV := fun j => if j = k then some v else m j

/-- Go `strings.SplitN(t, "=", 2)` for a `t` that contains the separator:
the text before the first separator and the text after it. -/
def SplitN2 (t : Str) (sep : Char) : Str × Str :=
  (t.takeWhile (fun c => c != sep), (t.dropWhile (fun c => c != sep)).tail)

/-- Go `strings.Trim(s, cutset)`: drop every leading and every trailing rune
that belongs to the cutset. -/
def Trim (s : Str) (cutset : Char → Bool) : Str :=
  (s.dropWhile cutset).rdropWhile cutset

/-- The body of the loop of `parseArgs` for token `t` (parser.go:125-136). -/
def parseArgsStep (lower : Char → Char) (m : KV) (t : Str) : KV :=
  if t = [] then m
  else if t.contains eqSign then
    let parts := SplitN2 t eqSign
    let key := ToLower lower parts.1
    let val := Trim parts.2 isQuote
    m.set key val
  else
    m.set (ToLower lower t) "true".toList

/-- Go `parseArgs` (parser.go:122). -/
def parseArgs (lower : Char → Char) (tokens : List Str) : KV :=
  tokens.foldl (parseArgsStep lower) KV.empty

/-! ## Errors -/

/-- The error values built in parser.go, one constructor per format string:
"empty input", "unknown command: %s", "target must be pointer to struct, got %T",
"invalid bool for %s: %q", "invalid int for %s: %q", "invalid uint for %s: %q". -/
inductive Error where
  | emptyInput
  | unknownCommand (line : Str)
  | targetNotStruct (typeName : Str)
  | invalidBool (tag raw : Str)
  | invalidInt (tag raw : Str)
  | invalidUint (tag raw : Str)
deriving DecidableEq, Repr

/-! ## Command values as seen by `reflect` -/

/-- The `reflect.Kind` of a field, as far as the switch of `bindArgs` tells
kinds apart; `other` is every kind that falls to `default`. -/
inductive Kind where
  | string | bool
  | int | int8 | int16 | int32 | int64
  | uint | uint8 | uint16 | uint32 | uint64
  | other
deriving DecidableEq, Repr

/-- The current value of a field. -/
inductive FieldVal where
  | str (s : Str)
  | bool (b : Bool)
  | int (n : Int)
  | uint (n : Nat)
  | other
deriving DecidableEq, Repr

/-- One struct field: its Go name, the value of the `cli` key of its tag (empty
when there is none), its kind, `CanSet` (the field is exported), its value. -/
structure Field where
  Name : Str
  cli : Str
  kind : Kind
  canSet : Bool
  val : FieldVal
deriving DecidableEq, Repr

/-- A struct value: its type name and its fields in declaration order. -/
structure Struct where
  typeName : Str
  fields : List Field
deriving DecidableEq, Repr

/-- A value of type `any` as `bindArgs` sees it: a pointer to a struct, or
something else (of which only the type name is used). -/
inductive AnyVal where
  | ptrStruct (s : Struct)
  | other (typeName : Str)
deriving DecidableEq, Repr

/-- Width in bits of an integer kind; `int` and `uint` are 64 bits wide (a
64-bit target). -/
def Kind.bits : Kind → Nat
  | .int8 | .uint8 => 8
  | .int16 | .uint16 => 16
  | .int32 | .uint32 => 32
  | _ => 64

/-- Go conversion of an `int64` to a signed integer type of the given width,
as done by `reflect.Value.SetInt`: two's complement truncation. -/
def wrapInt (bits : Nat) (n : Int) : Int :=
  (n + 2 ^ (bits - 1)) % 2 ^ bits - 2 ^ (bits - 1)

/-- Go conversion of a `uint64` to an unsigned integer type of the given width,
as done by `reflect.Value.SetUint`: truncation. -/
def wrapUint (bits : Nat) (n : Nat) : Nat := n % 2 ^ bits

/-! ## `strconv` parsers used by `bindArgs` -/

/-- Go `strconv.ParseBool`. -/
def ParseBool (s : Str) : Option Bool :=
  if s = "1".toList ∨ s = "t".toList ∨ s = "T".toList ∨ s = "TRUE".toList ∨
      s = "true".toList ∨ s = "True".toList then some true
  else if s = "0".toList ∨ s = "f".toList ∨ s = "F".toList ∨ s = "FALSE".toList ∨
      s = "false".toList ∨ s = "False".toList then some false
  else none

/-- The value of a decimal digit, `none` for any other rune. -/
def digitVal (c : Char) : Option Nat :=
  if 48 ≤ c.toNat ∧ c.toNat ≤ 57 then some (c.toNat - 48) else none

/-- The number written by a run of decimal digits read after the prefix value
`acc`; `none` when a rune is not a digit. -/
def parseDigits (acc : Nat) : Str → Option Nat
  | [] => some acc
  | c :: cs =>
    match digitVal c with
    | none => none
    | some d => parseDigits (acc * 10 + d) cs

/-- Go `strconv.ParseUint(s, 10, 64)`; `none` when it returns an error (bad
syntax or a value above 2^64 - 1). -/
def ParseUint (s : Str) : Option Nat :=
  if s = [] then none
  else
    match parseDigits 0 s with
    | none => none
    | some n => if n < 2 ^ 64 then some n else none

/-- Go `strconv.ParseInt(s, 10, 64)`; `none` when it returns an error (bad
syntax or a value outside the `int64` range). -/
def ParseInt (s : Str) : Option Int :=
  match s with
  | [] => none
  | c :: cs =>
    let neg := c == Char.ofNat 45
    let body := if c == Char.ofNat 43 || c == Char.ofNat 45 then cs else c :: cs
    if body = [] then none
    else
      match parseDigits 0 body with
      | none => none
      | some un =>
        if !neg && un ≥ 2 ^ 63 then none
        else if neg && un > 2 ^ 63 then none
        else some (if neg then - (un : Int) else (un : Int))

/-! ## `bindArgs` (parser.go:141-194) -/

/-- The binding key of a field (parser.go:151-156): the lower-cased `cli` tag,
or the lower-cased field name when there is no tag. -/
def bindKey (lower : Char → Char) (f : Field) : Str :=
  if f.cli = [] then ToLower lower f.Name else ToLower lower f.cli

/-- The switch on `fv.Kind()` (parser.go:168-190) for a field that can be set
and whose key `tag` is bound to `raw`: the field after the assignment, or the
error returned. -/
def bindField (tag : Str) (f : Field) (raw : Str) : Except Error Field :=
  match f.kind with
  | .string => .ok { f with val := .str raw }
  | .bool =>
    match ParseBool raw with
    | none => .error (.invalidBool tag raw)
    | some b => .ok { f with val := .bool b }
  | .int | .int8 | .int16 | .int32 | .int64 =>
    match ParseInt raw with
    | none => .error (.invalidInt tag raw)
    | some n => .ok { f with val := .int (wrapInt f.kind.bits n) }
  | .uint | .uint8 | .uint16 | .uint32 | .uint64 =>
    match ParseUint raw with
    | none => .error (.invalidUint tag raw)
    | some n => .ok { f with val := .uint (wrapUint f.kind.bits n) }
  | .other => .ok f

/-- The field loop of `bindArgs` (parser.go:149-191) over the remaining fields:
the fields as they are when the function returns, and the error returned (if
any).  On an error the failing field and the fields after it are as before. -/
def bindFields (lower : Char → Char) (kv : KV) : List Field → List Field × Option Error
  | [] => ([], none)
  | f :: fs =>
    let tag := bindKey lower f
    match kv tag with
    | none =>
      let r := bindFields lower kv fs
      (f :: r.1, r.2)
    | some raw =>
      if !f.canSet then
        let r := bindFields lower kv fs
        (f :: r.1, r.2)
      else
        match bindField tag f raw with
        | .error e => (f :: fs, some e)
        | .ok g =>
          let r := bindFields lower kv fs
          (g :: r.1, r.2)

/-- Go `bindArgs` (parser.go:141): the target after the call and the error
returned (if any). -/
def bindArgs (lower : Char → Char) (target : AnyVal) (kv : KV) : AnyVal × Option Error :=
  match target with
  | .other tn => (.other tn, some (.targetNotStruct tn))
  | .ptrStruct s =>
    let r := bindFields lower kv s.fields
    (.ptrStruct { s with fields := r.1 }, r.2)

/-! ## Registry and `Parse` (parser.go:11-84) -/

/-- Go `Command`: a path and a factory. -/
structure Command where
  Path : List Str
  New : Unit → AnyVal

/-- Go `ParsedCommand`. -/
structure ParsedCommand where
  Def : Command
  Value : AnyVal

/-- Go `Parser`. -/
structure Parser where
  commands : List Command

/-- Go `NewParser`. -/
def NewParser : Parser := ⟨[]⟩

/-- Go `Parser.Register` (parser.go:29); `none` is the panic "empty command path". -/
def Parser.Register (lower : Char → Char) (p : Parser) (cmd : Str) (fn : Unit → AnyVal) :
    Option Parser :=
  let parts := Fields (ToLower lower cmd)
  if parts.length = 0 then none
  else some ⟨p.commands ++ [⟨parts, fn⟩]⟩

/-- Go `Parser.RegisterMany` (parser.go:40). -/
def Parser.RegisterMany (lower : Char → Char) (p : Parser) (fn : Unit → AnyVal)
    (cmds : List Str) : Option Parser :=
  cmds.foldlM (fun q cmd => q.Register lower cmd fn) p

/-- The inner loop of `Parse` (parser.go:58-64), entered with
`len(tokens) >= len(path)`: every path word equals the lower-cased token at the
same index. -/
def pathMatches (lower : Char → Char) : List Str → List Str → Bool
  | _, [] => true
  | [], _ :: _ => false
  | t :: ts, w :: ws => if ToLower lower t != w then false else pathMatches lower ts ws

/-- One iteration of the outer loop of `Parse` (parser.go:54-69) on the locals
`best` and `bestLen`. -/
def matchStep (lower : Char → Char) (tokens : List Str) (st : Option Command × Nat)
    (d : Command) : Option Command × Nat :=
  if tokens.length < d.Path.length then st
  else if pathMatches lower tokens d.Path && d.Path.length > st.2 then
    (some d, d.Path.length)
  else st

/-- The outer loop of `Parse` (parser.go:52-69): the final `best` and `bestLen`. -/
def findBest (lower : Char → Char) (commands : List Command) (tokens : List Str) :
    Option Command × Nat :=
  commands.foldl (matchStep lower tokens) (none, 0)

/-- Go `Parser.Parse` (parser.go:46). -/
def Parser.Parse (lower : Char → Char) (p : Parser) (line : Str) :
    Except Error ParsedCommand :=
  let tokens := tokenize line
  if tokens.length = 0 then .error .emptyInput
  else
    let r := findBest lower p.commands tokens
    match r.1 with
    | none => .error (.unknownCommand line)
    | some best =>
      let argTokens := tokens.drop r.2
      let kv := parseArgs lower argTokens
      let cmdVal := best.New ()
      match bindArgs lower cmdVal kv with
      | (_, some err) => .error err
      | (v, none) => .ok ⟨best, v⟩

/-! ## The command shapes of commands.go and the registrations of cli.go -/

/-- A text field with the given Go name and `cli` tag, at its zero value. -/
def textField (name tag : String) : Field := ⟨name.toList, tag.toList, .string, true, .str []⟩

/-- An `int` field with the given Go name and `cli` tag, at its zero value. -/
def intField (name tag : String) : Field := ⟨name.toList, tag.toList, .int, true, .int 0⟩

/-- The fields shared by `Head`, `Query` and `Delete` (commands.go:23-45). -/
def rangeFields : List Field :=
  [textField "Table" "table", textField "Prefix" "prefix", textField "From" "from",
   textField "To" "to", intField "Limit" "limit"]

/-- Go `&TableInfo{}`. -/
def TableInfo : AnyVal := .ptrStruct ⟨"TableInfo".toList, [textField "Name" "name"]⟩
/-- Go `&ListTables{}`. -/
def ListTables : AnyVal := .ptrStruct ⟨"ListTables".toList, []⟩
/-- Go `&S3Help{}`. -/
def S3Help : AnyVal := .ptrStruct ⟨"S3Help".toList, []⟩
/-- Go `&S3List{}`. -/
def S3List : AnyVal := .ptrStruct ⟨"S3List".toList, []⟩
/-- Go `&S3Add{}`. -/
def S3Add : AnyVal := .ptrStruct ⟨"S3Add".toList, [textField "Name" "name"]⟩
/-- Go `&S3Delete{}`. -/
def S3Delete : AnyVal := .ptrStruct ⟨"S3Delete".toList, [textField "Name" "name"]⟩
/-- Go `&Head{}`. -/
def Head : AnyVal := .ptrStruct ⟨"Head".toList, rangeFields⟩
/-- Go `&Query{}`. -/
def Query : AnyVal := .ptrStruct ⟨"Query".toList, rangeFields⟩
/-- Go `&Delete{}`. -/
def Delete : AnyVal := .ptrStruct ⟨"Delete".toList, rangeFields⟩
/-- Go `&S3Backup{}`. -/
def S3Backup : AnyVal := .ptrStruct ⟨"S3Backup".toList, []⟩
/-- Go `&S3Restore{}`. -/
def S3Restore : AnyVal := .ptrStruct ⟨"S3Restore".toList, []⟩
/-- Go `&Stats{}`. -/
def Stats : AnyVal := .ptrStruct ⟨"Stats".toList, []⟩
/-- Go `&ConfigHelp{}`. -/
def ConfigHelp : AnyVal := .ptrStruct ⟨"ConfigHelp".toList, []⟩
/-- Go `&ShowConfig{}`. -/
def ShowConfig : AnyVal := .ptrStruct ⟨"ShowConfig".toList, []⟩
/-- Go `&ResetConfig{}`. -/
def ResetConfig : AnyVal := .ptrStruct ⟨"ResetConfig".toList, []⟩
/-- Go `&SetConfig{}`. -/
def SetConfig : AnyVal := .ptrStruct ⟨"SetConfig".toList, [textField "Addr" "addr"]⟩

/-- The calls made by Go `Cli.registerCommands` (cli.go:132-158), in order. -/
def registrations (lower : Char → Char) : List (Parser → Option Parser) :=
  [fun p => p.Register lower "table".toList (fun _ => TableInfo),
   fun p => p.Register lower "tables".toList (fun _ => ListTables),
   fun p => p.RegisterMany lower (fun _ => S3Help) ["s3".toList, "s3 help".toList, "s3 h".toList],
   fun p => p.Register lower "s3 list".toList (fun _ => S3List),
   fun p => p.Register lower "s3 add".toList (fun _ => S3Add),
   fun p => p.Register lower "s3 delete".toList (fun _ => S3Delete),
   fun p => p.Register lower "stats".toList (fun _ => Stats),
   fun p => p.Register lower "head".toList (fun _ => Head),
   fun p => p.Register lower "query".toList (fun _ => Query),
   fun p => p.Register lower "delete".toList (fun _ => Delete),
   fun p => p.Register lower "backup".toList (fun _ => S3Backup),
   fun p => p.Register lower "restore".toList (fun _ => S3Restore),
   fun p => p.RegisterMany lower (fun _ => ConfigHelp)
     ["config".toList, "config help".toList, "config h".toList],
   fun p => p.Register lower "config show".toList (fun _ => ShowConfig),
   fun p => p.Register lower "config set".toList (fun _ => SetConfig),
   fun p => p.Register lower "config reset".toList (fun _ => ResetConfig)]

/-- Go `Cli.registerCommands` (cli.go:132), run on the parser `p`. -/
def registerCommands (lower : Char → Char) (p : Parser) : Option Parser :=
  (registrations lower).foldlM (fun q call => call q) p

/-- The parser built by `registerCommands`, with the ASCII lower-casing; the
empty parser stands for a panic (there is none). -/
def cliParser : Parser := (registerCommands Char.toLower NewParser).getD NewParser

/-- The registry of the longest-prefix example: `Register("s3", ...)` then
`Register("s3 add", ...)` on a new parser, with the ASCII lower-casing. -/
def s3Parser : Parser :=
  ((NewParser.Register Char.toLower "s3".toList (fun _ => S3Help)).bind
    (fun p => p.Register Char.toLower "s3 add".toList (fun _ => S3Add))).getD NewParser

/-- A struct with one unexported boolean field, `struct{ verbose bool }`, as
`reflect` shows it: the field cannot be set. -/
def hiddenFlag : AnyVal :=
  .ptrStruct ⟨"hiddenFlag".toList, [⟨"verbose".toList, [], .bool, false, .bool false⟩]⟩

/-- A struct with one exported boolean field without a tag,
`struct{ Verbose bool }`, at its zero value. -/
def visibleFlag : AnyVal :=
  .ptrStruct ⟨"visibleFlag".toList, [⟨"Verbose".toList, [], .bool, true, .bool false⟩]⟩

/-- The value `&S3Add{Name: name}`. -/
def S3AddNamed (name : String) : AnyVal :=
  .ptrStruct ⟨"S3Add".toList, [⟨"Name".toList, "name".toList, .string, true, .str name.toList⟩]⟩

/-- The value `&Query{Table: table}`. -/
def QueryOf (table : String) : AnyVal :=
  .ptrStruct ⟨"Query".toList,
    [⟨"Table".toList, "table".toList, .string, true, .str table.toList⟩,
     textField "Prefix" "prefix", textField "From" "from", textField "To" "to",
     intField "Limit" "limit"]⟩

/-- The parsers that `NewParser` and calls of `Register` and `RegisterMany`
that return (do not panic) can produce. -/
inductive Reachable (lower : Char → Char) : Parser → Prop where
  | new : Reachable lower NewParser
  | register {p q : Parser} (cmd : Str) (fn : Unit → AnyVal) :
      Reachable lower p → p.Register lower cmd fn = some q → Reachable lower q
  | registerMany {p q : Parser} (fn : Unit → AnyVal) (cmds : List Str) :
      Reachable lower p → p.RegisterMany lower fn cmds = some q → Reachable lower q

/-- The kinds of the signed case of the switch of `bindArgs` (parser.go:177). -/
def Kind.isInt : Kind → Bool
  | .int | .int8 | .int16 | .int32 | .int64 => true
  | _ => false

/-- The kinds of the unsigned case of the switch of `bindArgs` (parser.go:183). -/
def Kind.isUint : Kind → Bool
  | .uint | .uint8 | .uint16 | .uint32 | .uint64 => true
  | _ => false

/-- A decimal digit, `0` to `9`. -/
def isDigit (c : Char) : Bool := 48 ≤ c.toNat && c.toNat ≤ 57

/-- The number a run of decimal digits denotes in base ten: the sum of the
digit values weighted by the powers of ten, the last digit having weight one. -/
def decimal (ds : Str) : Nat := Nat.ofDigits 10 (ds.reverse.map (fun c => c.toNat - 48))

/-- The text `raw` is a base-10 numeral for the integer `v`: an optional sign
`+` or `-` followed by at least one decimal digit. -/
def denotesInt (raw : Str) (v : Int) : Prop :=
  ∃ ds : Str, ds ≠ [] ∧ (∀ c ∈ ds, isDigit c = true) ∧
    ((raw = ds ∧ v = (decimal ds : Int)) ∨
     (raw = Char.ofNat 43 :: ds ∧ v = (decimal ds : Int)) ∨
     (raw = Char.ofNat 45 :: ds ∧ v = - (decimal ds : Int)))

/-- A struct with one settable `int8` field, `struct{ N int8 }`, at its zero value. -/
def narrowInt : AnyVal :=
  .ptrStruct ⟨"narrowInt".toList, [⟨"N".toList, [], .int8, true, .int 0⟩]⟩

/-- A struct with one settable `uint8` field, `struct{ N uint8 }`, at its zero value. -/
def narrowUint : AnyVal :=
  .ptrStruct ⟨"narrowUint".toList, [⟨"N".toList, [], .uint8, true, .uint 0⟩]⟩

/-- The registry after `Register("s3", ...)` with the `S3Help` factory and then
`Register("s3", ...)` again with the `S3List` factory, on a new parser. -/
def dupParser : Parser :=
  ((NewParser.Register Char.toLower "s3".toList (fun _ => S3Help)).bind
    (fun p => p.Register Char.toLower "s3".toList (fun _ => S3List))).getD NewParser

/-- The value `&Query{Table: table, Limit: limit}`. -/
def QueryWith (table : String) (limit : Int) : AnyVal :=
  .ptrStruct ⟨"Query".toList,
    [⟨"Table".toList, "table".toList, .string, true, .str table.toList⟩,
     textField "Prefix" "prefix", textField "From" "from", textField "To" "to",
     ⟨"Limit".toList, "limit".toList, .int, true, .int limit⟩]⟩

/-- A struct with one unexported `int` field, `struct{ n int }`, at its zero
value: the field cannot be set. -/
def hiddenInt : AnyVal :=
  .ptrStruct ⟨"hiddenInt".toList, [⟨"n".toList, [], .int, false, .int 0⟩]⟩

/-- A struct with an unexported text field before an `int` field,
`struct{ name string; Limit int }`, at its zero value: `name` cannot be set. -/
def hiddenThenLimit : AnyVal :=
  .ptrStruct ⟨"hiddenThenLimit".toList,
    [⟨"name".toList, [], .string, false, .str []⟩, ⟨"Limit".toList, [], .int, true, .int 0⟩]⟩

/-! ## `maskKey` (helpers.go:55-66) -/

/-- A Go string seen as its bytes, each a number below 256: `len` and slicing
count bytes. -/
abbrev Bytes := List Nat

/-- The bytes of the string literal `"..."`. -/
def dots : Bytes := [46, 46, 46]

/-- The Go slice expression `k[lo:hi]` on a string; `none` is the run-time panic
for indices out of range. -/
def slice (k : Bytes) (lo hi : Int) : Option Bytes :=
  if 0 ≤ lo ∧ lo ≤ hi ∧ hi ≤ (k.length : Int) then some ((k.take hi.toNat).drop lo.toNat)
  else none

/-- Go `maskKey` (helpers.go:55); `none` is a panic of a slice expression. -/
def maskKey (k : Bytes) : Option Bytes :=
  if k = [] then some []
  else if k.length ≤ 4 then some k
  else if k.length ≤ 8 then
    match slice k 0 2 with
    | none => none
    | some a => some (a ++ dots)
  else
    match slice k 0 4, slice k ((k.length : Int) - 4) (k.length : Int) with
    | some a, some b => some (a ++ dots ++ b)
    | _, _ => none

/-- The bytes of a string literal made of ASCII characters. -/
def ascii (s : String) : Bytes := s.toList.map Char.toNat

/-- The command strings of `registerCommands` (cli.go:132-158) whose value has
text fields, each with the `cli` tag of one of those fields (commands.go). -/
def cliTextKeys : List (Str × Str) :=
  [("table".toList, "name".toList), ("s3 add".toList, "name".toList),
   ("s3 delete".toList, "name".toList),
   ("head".toList, "table".toList), ("head".toList, "prefix".toList),
   ("head".toList, "from".toList), ("head".toList, "to".toList),
   ("query".toList, "table".toList), ("query".toList, "prefix".toList),
   ("query".toList, "from".toList), ("query".toList, "to".toList),
   ("delete".toList, "table".toList), ("delete".toList, "prefix".toList),
   ("delete".toList, "from".toList), ("delete".toList, "to".toList),
   ("config set".toList, "addr".toList)]

/-- The path and the bound value of a successful parse, for comparison. -/
def outcome (r : Except Error ParsedCommand) : Except Error (List Str × AnyVal) :=
  r.map (fun pc => (pc.Def.Path, pc.Value))

/-! ## Tokenizer: the loop on runs of characters -/

theorem isBlank_not_isQuote {r : Char} (h : isBlank r = true) : isQuote r = false := by
  simp only [isBlank, Bool.or_eq_true, beq_iff_eq] at h
  rcases h with h | h <;> subst h <;> decide

theorem isQuote_not_isBlank {r : Char} (h : isQuote r = true) : isBlank r = false := by
  cases hb : isBlank r
  · rfl
  · rw [isBlank_not_isQuote hb] at h
    exact absurd h (by decide)

/-- A rune that is neither blank nor a quote is appended to `cur`, in any state. -/
theorem tokStep_plain (s : TokState) {r : Char} (hb : isBlank r = false)
    (hq : isQuote r = false) : tokStep s r = { s with cur := s.cur ++ [r] } := by
  simp [tokStep, hb, hq]

/-- A blank outside quotes closes the current token, if there is one. -/
theorem tokStep_blank (s : TokState) {r : Char} (hb : isBlank r = true)
    (hs : s.inQuotes = false) :
    tokStep s r = if s.cur = [] then s else { s with tokens := s.tokens ++ [s.cur], cur := [] } := by
  cases hc : s.cur with
  | nil => simp [tokStep, hb, hs, hc]
  | cons c cs => simp [tokStep, hb, hs, hc]

/-- Inside a span opened by `q`, every rune other than `q` is appended to `cur`. -/
theorem tokStep_inside (s : TokState) {r : Char} (hs : s.inQuotes = true)
    (hr : r ≠ s.quoteChar) : tokStep s r = { s with cur := s.cur ++ [r] } := by
  unfold tokStep
  by_cases hb : isBlank r = true
  · simp [hb, hs]
  · by_cases hq : isQuote r = true
    · simp [hb, hq, hs, hr]
    · simp [hb, hq]

/-- A quote outside quotes opens a span and is not written to `cur`. -/
theorem tokStep_open (s : TokState) {q : Char} (hq : isQuote q = true)
    (hs : s.inQuotes = false) : tokStep s q = { s with inQuotes := true, quoteChar := q } := by
  simp [tokStep, isQuote_not_isBlank hq, hq, hs]

/-- The quote that opened the span closes it and is not written to `cur`. -/
theorem tokStep_close (s : TokState) {q : Char} (hq : isQuote q = true)
    (hs : s.inQuotes = true) (hc : s.quoteChar = q) :
    tokStep s q = { s with inQuotes := false } := by
  simp [tokStep, isQuote_not_isBlank hq, hq, hs, hc]

/-- A run of runes that are neither blank nor quotes is appended to `cur`. -/
theorem foldl_word (w : Str) (s : TokState)
    (hw : ∀ c ∈ w, isBlank c = false ∧ isQuote c = false) :
    w.foldl tokStep s = { s with cur := s.cur ++ w } := by
  induction w generalizing s with
  | nil => simp
  | cons c cs ih =>
    have hc := hw c (List.mem_cons_self _ _)
    rw [List.foldl_cons, tokStep_plain s hc.1 hc.2,
      ih _ (fun x hx => hw x (List.mem_cons_of_mem _ hx))]
    simp

/-- Inside a span opened by `q`, a run of runes without `q` is appended to `cur`. -/
theorem foldl_inside (b : Str) (s : TokState) (q : Char) (hs : s.inQuotes = true)
    (hc : s.quoteChar = q) (hb : q ∉ b) :
    b.foldl tokStep s = { s with cur := s.cur ++ b } := by
  induction b generalizing s with
  | nil => simp
  | cons c cs ih =>
    have hne : c ≠ s.quoteChar := by
      rw [hc]; intro h; exact hb (h ▸ List.mem_cons_self _ _)
    rw [List.foldl_cons, tokStep_inside s hs hne,
      ih _ (by simpa using hs) (by simpa using hc) (fun h => hb (List.mem_cons_of_mem _ h))]
    simp

/-- An opening quote followed by a run without that quote: the span stays open
and the run is appended to `cur`. -/
theorem foldl_open (b : Str) (s : TokState) (q : Char) (hq : isQuote q = true)
    (hs : s.inQuotes = false) (hb : q ∉ b) :
    (q :: b).foldl tokStep s = { s with cur := s.cur ++ b, inQuotes := true, quoteChar := q } := by
  rw [List.foldl_cons, tokStep_open s hq hs, foldl_inside b _ q rfl rfl hb]

/-- A complete quoted span: the run between the quotes is appended to `cur`,
the two quotes are not, and the state is outside quotes again. -/
theorem foldl_quoted (b : Str) (s : TokState) (q : Char) (hq : isQuote q = true)
    (hs : s.inQuotes = false) (hb : q ∉ b) :
    (q :: b ++ [q]).foldl tokStep s = { s with cur := s.cur ++ b, quoteChar := q } := by
  have h : q :: b ++ [q] = (q :: b) ++ [q] := rfl
  rw [h, List.foldl_append, foldl_open b s q hq hs hb]
  simp only [List.foldl_cons, List.foldl_nil]
  rw [tokStep_close _ hq rfl rfl]
  simp [hs]

/-- What `splitRuns` computes, by cases on how the text starts: nothing for
the empty text, a leading separator is skipped, a non-empty separator-free
word up to the end is the only piece, and such a word followed by a separator
is the first piece. -/
theorem splitRuns_spec (sep : Char → Bool) :
    splitRuns sep [] = [] ∧
    (∀ c rest, sep c = true → splitRuns sep (c :: rest) = splitRuns sep rest) ∧
    (∀ w, w ≠ [] → (∀ x ∈ w, sep x = false) → splitRuns sep w = [w]) ∧
    (∀ w c rest, w ≠ [] → (∀ x ∈ w, sep x = false) → sep c = true →
      splitRuns sep (w ++ c :: rest) = w :: splitRuns sep rest) := by
  refine ⟨by simp [splitRuns], ?_, ?_, ?_⟩
  · intro c rest hc
    simp [splitRuns, List.splitOnP_cons, hc]
  · intro w hw hx
    have h1 : w.splitOnP sep = [w] :=
      List.splitOnP_eq_single _ _ (fun x hx2 => by simp [hx x hx2])
    cases w with
    | nil => exact absurd rfl hw
    | cons a as =>
      unfold splitRuns
      rw [h1]
      simp
  · intro w c rest hw hx hc
    have h1 : (w ++ c :: rest).splitOnP sep = w :: rest.splitOnP sep :=
      List.splitOnP_first _ _ (fun x hx2 => by simp [hx x hx2]) c hc rest
    cases w with
    | nil => exact absurd rfl hw
    | cons a as =>
      unfold splitRuns
      rw [h1]
      simp

/-- Outside quotes, on a line without quotes, the loop and the final flush
produce the tokens so far followed by the runs of `cur ++ l`. -/
theorem foldl_no_quotes (l : Str) (s : TokState) (hs : s.inQuotes = false)
    (hl : ∀ c ∈ l, isQuote c = false) (hcur : ∀ c ∈ s.cur, isBlank c = false) :
    (l.foldl tokStep s).finish = s.tokens ++ splitRuns isBlank (s.cur ++ l) := by
  induction l generalizing s with
  | nil =>
    have h1 : s.cur.splitOnP isBlank = [s.cur] :=
      List.splitOnP_eq_single _ _ (fun x hx => by simp [hcur x hx])
    cases hc : s.cur with
    | nil => simp [TokState.finish, splitRuns, hc]
    | cons c cs =>
      rw [hc] at h1
      simp [TokState.finish, splitRuns, hc, h1]
  | cons r rs ih =>
    have hrs : ∀ c ∈ rs, isQuote c = false := fun c hc => hl c (List.mem_cons_of_mem _ hc)
    rw [List.foldl_cons]
    by_cases hb : isBlank r = true
    · have hsplit : (s.cur ++ r :: rs).splitOnP isBlank = s.cur :: rs.splitOnP isBlank :=
        List.splitOnP_first _ _ (fun x hx => by simp [hcur x hx]) r hb rs
      rw [tokStep_blank s hb hs]
      cases hc : s.cur with
      | nil =>
        rw [if_pos rfl, ih s hs hrs hcur]
        rw [hc] at hsplit
        simp only [List.nil_append] at hsplit
        simp [splitRuns, hc, hsplit]
      | cons c cs =>
        rw [if_neg (by simp), ih _ (by simpa using hs) hrs (by simp)]
        rw [hc] at hsplit
        unfold splitRuns
        rw [hsplit]
        simp
    · have hb' : isBlank r = false := by simpa using hb
      have hq : isQuote r = false := hl r (List.mem_cons_self _ _)
      rw [tokStep_plain s hb' hq, ih _ (by simpa using hs) hrs]
      · simp
      · intro c hc
        simp only [List.mem_append, List.mem_singleton] at hc
        rcases hc with hc | hc
        · exact hcur c hc
        · rw [hc]; exact hb'

/-- On a line of blanks only the loop leaves a quote-free state unchanged when
`cur` is empty. -/
theorem foldl_blanks (l : Str) (s : TokState) (hs : s.inQuotes = false) (hc : s.cur = [])
    (hl : ∀ c ∈ l, isBlank c = true) : l.foldl tokStep s = s := by
  induction l with
  | nil => rfl
  | cons r rs ih =>
    rw [List.foldl_cons, tokStep_blank s (hl r (List.mem_cons_self _ _)) hs, if_pos hc]
    exact ih (fun c h => hl c (List.mem_cons_of_mem _ h))

/-- A first word followed by a blank: the word is the first token. -/
theorem foldl_word_blank (a : Str) (r : Char) (hr : isBlank r = true) (ha : a ≠ [])
    (hca : ∀ c ∈ a, isBlank c = false ∧ isQuote c = false) :
    (a ++ [r]).foldl tokStep TokState.init = ⟨[a], [], false, Char.ofNat 0⟩ := by
  rw [List.foldl_append, foldl_word a _ hca]
  simp only [List.foldl_cons, List.foldl_nil]
  rw [tokStep_blank _ hr rfl, if_neg (by simpa [TokState.init] using ha)]
  simp [TokState.init]

/-! ## Errors of the binder and the branches of `Parse` -/

/-- The switch of `bindArgs` only returns the three coercion errors. -/
theorem bindField_error {tag : Str} {f : Field} {raw : Str} {e : Error}
    (h : bindField tag f raw = .error e) :
    e = .invalidBool tag raw ∨ e = .invalidInt tag raw ∨ e = .invalidUint tag raw := by
  unfold bindField at h
  cases hk : f.kind <;> simp only [hk] at h
  case bool =>
    cases hp : ParseBool raw <;> simp only [hp] at h <;> cases h
    exact Or.inl rfl
  case string => cases h
  case other => cases h
  all_goals first
    | (cases hp : ParseInt raw <;> simp only [hp] at h <;> cases h
       exact Or.inr (Or.inl rfl))
    | (cases hp : ParseUint raw <;> simp only [hp] at h <;> cases h
       exact Or.inr (Or.inr rfl))

/-- The field loop only returns coercion errors. -/
theorem bindFields_error (lower : Char → Char) (kv : KV) (fs : List Field) {e : Error}
    (h : (bindFields lower kv fs).2 = some e) :
    ∃ tag raw, e = .invalidBool tag raw ∨ e = .invalidInt tag raw ∨ e = .invalidUint tag raw := by
  induction fs with
  | nil => simp [bindFields] at h
  | cons f fs ih =>
    unfold bindFields at h
    cases hkv : kv (bindKey lower f) with
    | none => simp only [hkv] at h; exact ih h
    | some raw =>
      simp only [hkv] at h
      cases hset : f.canSet with
      | false => simp [hset] at h; exact ih h
      | true =>
        simp only [hset, Bool.not_true, Bool.false_eq_true, if_false] at h
        cases hb : bindField (bindKey lower f) f raw with
        | error e1 =>
          simp only [hb] at h
          cases h
          exact ⟨_, _, bindField_error hb⟩
        | ok g => simp only [hb] at h; exact ih h

/-- The error of `bindArgs` is never "empty input" nor "unknown command". -/
theorem bindArgs_error (lower : Char → Char) (target : AnyVal) (kv : KV) {e : Error}
    (h : (bindArgs lower target kv).2 = some e) :
    e ≠ .emptyInput ∧ ∀ line, e ≠ .unknownCommand line := by
  cases target with
  | other tn =>
    simp only [bindArgs, Option.some.injEq] at h
    subst h
    exact ⟨by simp, by simp⟩
  | ptrStruct s =>
    simp only [bindArgs] at h
    obtain ⟨tag, raw, h1 | h1 | h1⟩ := bindFields_error lower kv s.fields h <;> subst h1 <;>
      exact ⟨by simp, by simp⟩

/-- First branch of `Parse`: no tokens. -/
theorem Parse_nil (lower : Char → Char) (p : Parser) (line : Str) (h : tokenize line = []) :
    p.Parse lower line = .error .emptyInput := by
  simp [Parser.Parse, h]

/-- The branches of `Parse` on a line that has tokens. -/
theorem Parse_cons (lower : Char → Char) (p : Parser) (line : Str) (h : tokenize line ≠ []) :
    p.Parse lower line =
      match (findBest lower p.commands (tokenize line)).1 with
      | none => .error (.unknownCommand line)
      | some best =>
        match bindArgs lower (best.New ())
            (parseArgs lower ((tokenize line).drop (findBest lower p.commands (tokenize line)).2)) with
        | (_, some err) => .error err
        | (v, none) => .ok ⟨best, v⟩ := by
  simp [Parser.Parse, h]

/-! ## Tokenizer claims -/

/-- C3, as the code has it. Empty input: a line made only of spaces and tabs
(the empty line included) has no tokens and `Parse` fails on it with the "empty
input" error whatever is registered; and `Parse` returns the "empty input"
error exactly when `tokenize` yields no tokens. -/
theorem Parse_empty_input (lower : Char → Char) (p : Parser) (line : Str) :
    ((∀ c ∈ line, isBlank c = true) →
        tokenize line = [] ∧ p.Parse lower line = .error .emptyInput) ∧
    (p.Parse lower line = .error .emptyInput ↔ tokenize line = []) := by
  refine ⟨fun hl => ?_, ?_, Parse_nil lower p line⟩
  · have ht : tokenize line = [] := by
      unfold tokenize
      rw [foldl_blanks line TokState.init rfl rfl hl]
      rfl
    exact ⟨ht, Parse_nil lower p line ht⟩
  · intro h
    by_contra hne
    rw [Parse_cons lower p line hne] at h
    cases hb : (findBest lower p.commands (tokenize line)).1 with
    | none => simp [hb] at h
    | some best =>
      simp only [hb] at h
      generalize hr : bindArgs lower (best.New ())
        (parseArgs lower ((tokenize line).drop (findBest lower p.commands (tokenize line)).2)) = r at h
      obtain ⟨v, e⟩ := r
      cases e with
      | none => simp at h
      | some err =>
        simp only [Except.error.injEq] at h
        have := (bindArgs_error lower _ _ (e := err) (by rw [hr])).1
        exact this h

/-- C4, as the code has it. Tokenization without quotes: on a line that
contains neither quote character, `tokenize` returns the maximal runs of
characters other than space and tab, in order. -/
theorem tokenize_no_quotes (line : Str) (h : ∀ c ∈ line, isQuote c = false) :
    tokenize line = splitRuns isBlank line := by
  have := foldl_no_quotes line TokState.init rfl h (by simp [TokState.init])
  simpa [tokenize, TokState.init] using this

/-- C5. Quote stripping: a quote `q` opened outside quotes, a run `b` without
`q` and the closing `q` add exactly `b` (blanks and the other quote included)
to the current token, add neither of the two `q`, and end outside quotes; in
particular `a q b q d` separated by single spaces tokenizes to `[a, b, d]`. -/
theorem tokenize_quoted_span (q : Char) (hq : isQuote q = true) (b : Str) (hb : q ∉ b) :
    (∀ s : TokState, s.inQuotes = false →
      ([q] ++ b ++ [q]).foldl tokStep s = { s with cur := s.cur ++ b, quoteChar := q }) ∧
    (∀ a d : Str, a ≠ [] → d ≠ [] → b ≠ [] →
      (∀ c ∈ a, isBlank c = false ∧ isQuote c = false) →
      (∀ c ∈ d, isBlank c = false ∧ isQuote c = false) →
      tokenize (a ++ [space] ++ [q] ++ b ++ [q] ++ [space] ++ d) = [a, b, d]) := by
  refine ⟨fun s hs => foldl_quoted b s q hq hs hb, ?_⟩
  intro a d ha hd hbne hca hcd
  have hsp : isBlank space = true := by decide
  have e : a ++ [space] ++ [q] ++ b ++ [q] ++ [space] ++ d
      = (a ++ [space]) ++ ((q :: b ++ [q]) ++ ([space] ++ d)) := by simp
  unfold tokenize
  rw [e, List.foldl_append, foldl_word_blank a space hsp ha hca, List.foldl_append,
    foldl_quoted b _ q hq rfl hb, List.foldl_append]
  simp only [List.foldl_cons, List.foldl_nil]
  rw [tokStep_blank _ hsp rfl, if_neg (by simpa using hbne), foldl_word d _ hcd]
  cases d with
  | nil => exact absurd rfl hd
  | cons c cs => simp [TokState.finish]

/-- C6. Unterminated quote: `tokenize` is a total function; when a quote `q`
is opened outside quotes and `q` does not occur again, everything after it up
to the end of the line is added to the current token, which becomes the last
token; in particular `a`, a space, a quote and `b` tokenize to `[a, b]`. -/
theorem tokenize_unterminated_quote (q : Char) (hq : isQuote q = true) (b : Str)
    (hb : q ∉ b) :
    (∀ s : TokState, s.inQuotes = false →
      ([q] ++ b).foldl tokStep s =
        { s with cur := s.cur ++ b, inQuotes := true, quoteChar := q }) ∧
    (∀ pre : Str, (pre.foldl tokStep TokState.init).inQuotes = false →
      (pre.foldl tokStep TokState.init).cur ++ b ≠ [] →
      tokenize (pre ++ [q] ++ b) =
        (pre.foldl tokStep TokState.init).tokens ++ [(pre.foldl tokStep TokState.init).cur ++ b]) ∧
    (∀ a : Str, a ≠ [] → b ≠ [] → (∀ c ∈ a, isBlank c = false ∧ isQuote c = false) →
      tokenize (a ++ [space] ++ [q] ++ b) = [a, b]) := by
  have hpre : ∀ pre : Str, (pre.foldl tokStep TokState.init).inQuotes = false →
      (pre.foldl tokStep TokState.init).cur ++ b ≠ [] →
      tokenize (pre ++ [q] ++ b) =
        (pre.foldl tokStep TokState.init).tokens ++
          [(pre.foldl tokStep TokState.init).cur ++ b] := by
    intro pre hs hne
    have e : pre ++ [q] ++ b = pre ++ (q :: b) := by simp
    unfold tokenize
    rw [e, List.foldl_append, foldl_open b _ q hq hs hb]
    cases hc : (pre.foldl tokStep TokState.init).cur ++ b with
    | nil => exact absurd hc hne
    | cons c cs => simp [TokState.finish, hc]
  refine ⟨fun s hs => foldl_open b s q hq hs hb, hpre, ?_⟩
  intro a ha hbne hca
  have hst := foldl_word_blank a space (by decide) ha hca
  have := hpre (a ++ [space]) (by rw [hst]) (by rw [hst]; simpa using hbne)
  rw [hst] at this
  simpa using this

/-- C7. Mismatched quote is literal: while a span opened by `q` is open, the
other quote character is appended to the current token and the span stays open
with the same opening quote; hence a non-empty `b` without `q` (other quotes and
blanks allowed) between two `q` is the single token `b`. -/
theorem tokenize_other_quote_literal (q : Char) (hq : isQuote q = true) (b : Str)
    (hb : q ∉ b) (hne : b ≠ []) :
    (∀ (s : TokState) (r : Char), s.inQuotes = true → s.quoteChar = q → isQuote r = true →
      r ≠ q → tokStep s r = { s with cur := s.cur ++ [r] }) ∧
    tokenize ([q] ++ b ++ [q]) = [b] := by
  refine ⟨fun s r hs hc _ hr => tokStep_inside s hs (by rw [hc]; exact hr), ?_⟩
  have e : [q] ++ b ++ [q] = q :: b ++ [q] := rfl
  unfold tokenize
  rw [e, foldl_quoted b _ q hq rfl hb]
  cases b with
  | nil => exact absurd rfl hne
  | cons c cs => simp [TokState.finish, TokState.init]

/-! ## Matcher -/

/-- The inner loop of `Parse` succeeds exactly when the path is a prefix of the
lower-cased tokens. -/
theorem pathMatches_iff (lower : Char → Char) (path tokens : List Str) :
    pathMatches lower tokens path = true ↔ path <+: tokens.map (ToLower lower) := by
  induction path generalizing tokens with
  | nil => simp [pathMatches]
  | cons w ws ih =>
    cases tokens with
    | nil => simp [pathMatches]
    | cons t ts =>
      simp only [pathMatches, List.map_cons, List.cons_prefix_cons]
      by_cases h : ToLower lower t = w
      · simp [h, ih]
      · have h2 : ¬ w = ToLower lower t := fun e => h e.symm
        simp [h, h2]

/-- One iteration of the outer loop: a definition replaces `best` exactly when
its path is a prefix of the lower-cased tokens and is longer than `bestLen`. -/
theorem matchStep_eq (lower : Char → Char) (tokens : List Str) (st : Option Command × Nat)
    (d : Command) :
    (d.Path <+: tokens.map (ToLower lower) ∧ st.2 < d.Path.length ∧
        matchStep lower tokens st d = (some d, d.Path.length)) ∨
    (¬ (d.Path <+: tokens.map (ToLower lower) ∧ st.2 < d.Path.length) ∧
        matchStep lower tokens st d = st) := by
  unfold matchStep
  by_cases hlen : tokens.length < d.Path.length
  · right
    refine ⟨fun h => ?_, by simp [hlen]⟩
    have := h.1.length_le
    simp only [List.length_map] at this
    omega
  · by_cases hm : pathMatches lower tokens d.Path = true
    · by_cases hgt : st.2 < d.Path.length
      · left
        exact ⟨(pathMatches_iff lower _ _).1 hm, hgt, by simp [hlen, hm, hgt]⟩
      · right
        exact ⟨fun h => hgt h.2, by simp [hlen, hgt]⟩
    · right
      refine ⟨fun h => hm ((pathMatches_iff lower _ _).2 h.1), ?_⟩
      have hm' : pathMatches lower tokens d.Path = false := by simpa using hm
      simp [hlen, hm']

/-- The outer loop of `Parse` from any values of `best` and `bestLen`:
`bestLen` never decreases, it bounds the length of every matching path seen,
and the locals are either untouched or a matching definition and its length. -/
theorem foldl_matchStep (lower : Char → Char) (tokens : List Str) (cmds : List Command)
    (st : Option Command × Nat) :
    st.2 ≤ (cmds.foldl (matchStep lower tokens) st).2 ∧
    (∀ d ∈ cmds, d.Path <+: tokens.map (ToLower lower) →
      d.Path.length ≤ (cmds.foldl (matchStep lower tokens) st).2) ∧
    (cmds.foldl (matchStep lower tokens) st = st ∨
      ∃ d ∈ cmds, d.Path <+: tokens.map (ToLower lower) ∧ st.2 < d.Path.length ∧
        cmds.foldl (matchStep lower tokens) st = (some d, d.Path.length)) := by
  induction cmds generalizing st with
  | nil => simp
  | cons c cs ih =>
    rw [List.foldl_cons]
    obtain ⟨h1, h2, h3⟩ := ih (matchStep lower tokens st c)
    rcases matchStep_eq lower tokens st c with ⟨hp, hlt, he⟩ | ⟨hn, he⟩
    · rw [he] at h1 h2 h3 ⊢
      simp only at h1
      refine ⟨by omega, ?_, ?_⟩
      · intro d hd hpre
        rcases List.mem_cons.1 hd with rfl | hd
        · exact h1
        · exact h2 d hd hpre
      · right
        rcases h3 with h3 | ⟨d, hd, hpre, hlt2, h3⟩
        · exact ⟨c, List.mem_cons_self _ _, hp, hlt, h3⟩
        · exact ⟨d, List.mem_cons_of_mem _ hd, hpre, by simp only at hlt2; omega, h3⟩
    · rw [he] at h1 h2 h3 ⊢
      refine ⟨h1, ?_, ?_⟩
      · intro d hd hpre
        rcases List.mem_cons.1 hd with rfl | hd
        · by_contra hlt
          exact hn ⟨hpre, by omega⟩
        · exact h2 d hd hpre
      · rcases h3 with h3 | ⟨d, hd, hpre, hlt2, h3⟩
        · exact Or.inl h3
        · exact Or.inr ⟨d, List.mem_cons_of_mem _ hd, hpre, hlt2, h3⟩

/-- When the loop of `Parse` ends with `best == nil`, every registered path that
is a prefix of the lower-cased tokens is empty. -/
theorem findBest_none (lower : Char → Char) (cmds : List Command) (tokens : List Str)
    (h : (findBest lower cmds tokens).1 = none) :
    ∀ d ∈ cmds, d.Path <+: tokens.map (ToLower lower) → d.Path = [] := by
  intro d hd hpre
  obtain ⟨-, h2, h3⟩ := foldl_matchStep lower tokens cmds (none, 0)
  have hle := h2 d hd hpre
  rcases h3 with h3 | ⟨c, -, -, -, h3⟩
  · rw [h3] at hle
    exact List.length_eq_zero.1 (by simpa using hle)
  · rw [findBest, h3] at h
    cases h

/-- When the loop of `Parse` ends with a definition in `best`, it is registered,
its path is a non-empty prefix of the lower-cased tokens, `bestLen` is its
length, and no registered path that is such a prefix is longer. -/
theorem findBest_some (lower : Char → Char) (cmds : List Command) (tokens : List Str)
    (best : Command) (h : (findBest lower cmds tokens).1 = some best) :
    best ∈ cmds ∧ best.Path <+: tokens.map (ToLower lower) ∧ best.Path ≠ [] ∧
    (findBest lower cmds tokens).2 = best.Path.length ∧
    ∀ d ∈ cmds, d.Path <+: tokens.map (ToLower lower) → d.Path.length ≤ best.Path.length := by
  obtain ⟨-, h2, h3⟩ := foldl_matchStep lower tokens cmds (none, 0)
  rcases h3 with h3 | ⟨c, hc, hpre, hlt, h3⟩
  · rw [findBest, h3] at h
    cases h
  · have hb : c = best := by
      rw [findBest, h3] at h
      exact Option.some.inj h
    subst hb
    refine ⟨hc, hpre, ?_, by rw [findBest, h3], ?_⟩
    · intro hnil
      rw [hnil] at hlt
      exact Nat.not_lt_zero _ hlt
    · intro d hd hdpre
      have := h2 d hd hdpre
      rw [h3] at this
      exact this

/-- `Register` keeps every path non-empty. -/
theorem Register_paths_ne_nil (lower : Char → Char) (p q : Parser) (cmd : Str)
    (fn : Unit → AnyVal) (h : p.Register lower cmd fn = some q)
    (hp : ∀ d ∈ p.commands, d.Path ≠ []) : ∀ d ∈ q.commands, d.Path ≠ [] := by
  unfold Parser.Register at h
  by_cases hz : (Fields (ToLower lower cmd)).length = 0
  · simp [hz] at h
  · simp only [hz, if_false, Option.some.injEq] at h
    subst h
    intro d hd
    rcases List.mem_append.1 hd with hd | hd
    · exact hp d hd
    · rw [List.mem_singleton.1 hd]
      exact fun hnil => hz (by simpa using hnil)

/-- C1. Longest-prefix match: when `Parse` succeeds the line has tokens, the
returned definition is registered, its path equals the first `len(path)`
lower-cased tokens, no registered definition whose path is a prefix of the
lower-cased tokens has a longer path, and the returned value is the factory's
value bound with the arguments parsed from the tokens after the first
`len(path)`. -/
theorem Parse_longest_match (lower : Char → Char) (p : Parser) (line : Str)
    (pc : ParsedCommand) (h : p.Parse lower line = .ok pc) :
    tokenize line ≠ [] ∧ pc.Def ∈ p.commands ∧
    pc.Def.Path = ((tokenize line).map (ToLower lower)).take pc.Def.Path.length ∧
    (∀ d ∈ p.commands, d.Path <+: (tokenize line).map (ToLower lower) →
      d.Path.length ≤ pc.Def.Path.length) ∧
    bindArgs lower (pc.Def.New ())
      (parseArgs lower ((tokenize line).drop pc.Def.Path.length)) = (pc.Value, none) := by
  have hne : tokenize line ≠ [] := by
    intro hnil
    rw [Parse_nil lower p line hnil] at h
    cases h
  rw [Parse_cons lower p line hne] at h
  cases hb : (findBest lower p.commands (tokenize line)).1 with
  | none => simp [hb] at h
  | some best =>
    obtain ⟨hmem, hpre, -, hlen, hmax⟩ := findBest_some lower _ _ best hb
    simp only [hb, hlen] at h
    generalize hr : bindArgs lower (best.New ())
      (parseArgs lower ((tokenize line).drop best.Path.length)) = r at h
    obtain ⟨v, e⟩ := r
    cases e with
    | some err => simp at h
    | none =>
      simp only [Except.ok.injEq] at h
      subst h
      exact ⟨hne, hmem, (List.prefix_iff_eq_take.1 hpre), hmax, hr⟩

/-- C2. Unknown command: for a registry whose paths are all non-empty (every
registry built by `Register`) and a line that has tokens, `Parse` fails with
"unknown command: " followed by the unchanged line exactly when no registered
path is a prefix of the lower-cased tokens. -/
theorem Parse_unknown_command_iff (lower : Char → Char) (p : Parser) (line : Str)
    (hp : ∀ d ∈ p.commands, d.Path ≠ []) (hne : tokenize line ≠ []) :
    p.Parse lower line = .error (.unknownCommand line) ↔
      ∀ d ∈ p.commands, ¬ d.Path <+: (tokenize line).map (ToLower lower) := by
  rw [Parse_cons lower p line hne]
  cases hb : (findBest lower p.commands (tokenize line)).1 with
  | none =>
    simp only [true_iff]
    intro d hd hpre
    exact hp d hd (findBest_none lower _ _ hb d hd hpre)
  | some best =>
    obtain ⟨hmem, hpre, -, -, -⟩ := findBest_some lower _ _ best hb
    simp only
    constructor
    · intro h
      exfalso
      generalize hr : bindArgs lower (best.New ())
        (parseArgs lower ((tokenize line).drop (findBest lower p.commands (tokenize line)).2)) = r
        at h
      obtain ⟨v, e⟩ := r
      cases e with
      | none => simp at h
      | some err =>
        simp only [Except.error.injEq] at h
        exact (bindArgs_error lower _ _ (e := err) (by rw [hr])).2 line h
    · intro h
      exact absurd hpre (h best hmem)

/-! ## Argument tokens -/

theorem takeWhile_ne_append (sep : Char) (k v : Str) (hk : sep ∉ k) :
    (k ++ sep :: v).takeWhile (fun c => c != sep) = k := by
  induction k with
  | nil => simp
  | cons c cs ih =>
    have hc : c ≠ sep := fun e => hk (e ▸ List.mem_cons_self _ _)
    simp [List.takeWhile_cons, hc, ih (fun h => hk (List.mem_cons_of_mem _ h))]

theorem dropWhile_ne_append (sep : Char) (k v : Str) (hk : sep ∉ k) :
    (k ++ sep :: v).dropWhile (fun c => c != sep) = sep :: v := by
  induction k with
  | nil => simp
  | cons c cs ih =>
    have hc : c ≠ sep := fun e => hk (e ▸ List.mem_cons_self _ _)
    simp [List.dropWhile_cons, hc, ih (fun h => hk (List.mem_cons_of_mem _ h))]

/-- `SplitN` with limit 2 cuts at the first separator. -/
theorem SplitN2_append (sep : Char) (k v : Str) (hk : sep ∉ k) :
    SplitN2 (k ++ sep :: v) sep = (k, v) := by
  simp [SplitN2, takeWhile_ne_append sep k v hk, dropWhile_ne_append sep k v hk]

theorem takeWhile_ne_of_not_mem (sep : Char) (t : Str) (h : sep ∉ t) :
    t.takeWhile (fun c => c != sep) = t := by
  induction t with
  | nil => rfl
  | cons c cs ih =>
    have hc : c ≠ sep := fun e => h (e ▸ List.mem_cons_self _ _)
    simp [List.takeWhile_cons, hc, ih (fun hm => h (List.mem_cons_of_mem _ hm))]

theorem dropWhile_all_append (p : Char → Bool) (l x : Str) (hl : ∀ c ∈ l, p c = true) :
    (l ++ x).dropWhile p = x.dropWhile p := by
  induction l with
  | nil => rfl
  | cons c cs ih =>
    simp [List.dropWhile_cons, hl c (List.mem_cons_self _ _),
      ih (fun d hd => hl d (List.mem_cons_of_mem _ hd))]

theorem rdropWhile_append_all (p : Char → Bool) (m r : Str) (hr : ∀ c ∈ r, p c = true) :
    (m ++ r).rdropWhile p = m.rdropWhile p := by
  induction r using List.reverseRecOn with
  | nil => simp
  | append_singleton r x ih =>
    rw [← List.append_assoc, List.rdropWhile_concat_pos _ _ _ (hr x (by simp))]
    exact ih (fun c hc => hr c (by simp [hc]))

/-- `Trim` removes a whole run of cutset characters at each end and nothing
else: `m` is what remains of `l ++ m ++ r` when `l` and `r` are in the cutset
and `m` neither starts nor ends in it. -/
theorem Trim_eq (p : Char → Bool) (l m r : Str) (hl : ∀ c ∈ l, p c = true)
    (hr : ∀ c ∈ r, p c = true) (hm1 : ∀ c ∈ m.head?, p c = false)
    (hm2 : ∀ c ∈ m.getLast?, p c = false) : Trim (l ++ m ++ r) p = m := by
  unfold Trim
  rw [List.append_assoc, dropWhile_all_append p l _ hl]
  cases m with
  | nil =>
    have : r.dropWhile p = [] := List.dropWhile_eq_nil_iff.2 hr
    simp [this]
  | cons c cs =>
    have hc : p c = false := hm1 c (by simp)
    have hd : (c :: cs ++ r).dropWhile p = c :: cs ++ r := by
      simp [List.dropWhile_cons, hc]
    rw [hd, rdropWhile_append_all p _ r hr]
    refine List.rdropWhile_eq_self_iff.2 (fun hne => ?_)
    have := hm2 ((c :: cs).getLast hne) (by
      rw [List.getLast?_eq_getLast _ hne]; exact rfl)
    simp [this]

theorem contains_eq_true_iff (t : Str) (c : Char) : t.contains c = true ↔ c ∈ t := by
  simp

/-- The loop body of `parseArgs` on a non-empty token assigns one key, the
lower-cased text before the first `=` (the whole lower-cased token when there
is no `=`), a value that depends on the token only. -/
theorem parseArgsStep_set (lower : Char → Char) (t : Str) (ht : t ≠ []) :
    ∃ v, ∀ m : KV, parseArgsStep lower m t =
      m.set (ToLower lower (t.takeWhile (fun c => c != eqSign))) v := by
  by_cases hc : eqSign ∈ t
  · refine ⟨Trim (SplitN2 t eqSign).2 isQuote, fun m => ?_⟩
    simp [parseArgsStep, ht, hc, SplitN2]
  · refine ⟨"true".toList, fun m => ?_⟩
    rw [takeWhile_ne_of_not_mem eqSign t hc]
    simp [parseArgsStep, ht, hc]

theorem parseArgs_concat (lower : Char → Char) (ts : List Str) (t : Str) :
    parseArgs lower (ts ++ [t]) = parseArgsStep lower (parseArgs lower ts) t := by
  simp [parseArgs, List.foldl_append]

/-- Tokens that carry other keys leave the entry of `k` as it is. -/
theorem foldl_parseArgsStep_other (lower : Char → Char) (us : List Str) (m : KV) (k : Str)
    (hus : ∀ u ∈ us, u ≠ [] → ToLower lower (u.takeWhile (fun c => c != eqSign)) ≠ k) :
    (us.foldl (parseArgsStep lower) m) k = m k := by
  induction us generalizing m with
  | nil => rfl
  | cons u us ih =>
    rw [List.foldl_cons, ih _ (fun x hx => hus x (List.mem_cons_of_mem _ hx))]
    by_cases hu : u = []
    · simp [parseArgsStep, hu]
    · obtain ⟨v, hv⟩ := parseArgsStep_set lower u hu
      rw [hv m]
      have hne : ¬ k = ToLower lower (u.takeWhile (fun c => c != eqSign)) :=
        fun e => hus u (List.mem_cons_self _ _) hu e.symm
      simp [KV.set, hne]

/-- Every key of the map built by the loop of `parseArgs` was in the map before
or is the lower-cased key text of one of the tokens. -/
theorem foldl_parseArgsStep_key (lower : Char → Char) (ts : List Str) (m : KV) (k v : Str)
    (h : (ts.foldl (parseArgsStep lower) m) k = some v) :
    m k = some v ∨
      ∃ u ∈ ts, u ≠ [] ∧ k = ToLower lower (u.takeWhile (fun c => c != eqSign)) := by
  induction ts generalizing m with
  | nil => exact Or.inl h
  | cons u us ih =>
    rw [List.foldl_cons] at h
    rcases ih _ h with h1 | ⟨x, hx, hne, hk⟩
    · by_cases hu : u = []
      · left
        simpa [parseArgsStep, hu] using h1
      · obtain ⟨w, hw⟩ := parseArgsStep_set lower u hu
        rw [hw m] at h1
        by_cases hk : k = ToLower lower (u.takeWhile (fun c => c != eqSign))
        · exact Or.inr ⟨u, List.mem_cons_self _ _, hu, hk⟩
        · left
          simpa [KV.set, hk] using h1
    · exact Or.inr ⟨x, List.mem_cons_of_mem _ hx, hne, hk⟩

/-! ## Field loop of `bindArgs` -/

/-- The field loop only looks the binding keys of the fields up. -/
theorem bindFields_congr (lower : Char → Char) (kv1 kv2 : KV) (fs : List Field)
    (h : ∀ f ∈ fs, kv1 (bindKey lower f) = kv2 (bindKey lower f)) :
    bindFields lower kv1 fs = bindFields lower kv2 fs := by
  induction fs with
  | nil => rfl
  | cons f fs ih =>
    have hf := h f (List.mem_cons_self _ _)
    have ih2 := ih (fun g hg => h g (List.mem_cons_of_mem _ hg))
    simp only [bindFields, hf, ih2]

/-- With no binding key in the map the field loop changes nothing and
returns no error. -/
theorem bindFields_absent (lower : Char → Char) (kv : KV) (fs : List Field)
    (h : ∀ f ∈ fs, kv (bindKey lower f) = none) : bindFields lower kv fs = (fs, none) := by
  induction fs with
  | nil => rfl
  | cons f fs ih =>
    simp [bindFields, h f (List.mem_cons_self _ _),
      ih (fun g hg => h g (List.mem_cons_of_mem _ hg))]

/-- The field loop on a first field, case by case. -/
theorem bindFields_cons (lower : Char → Char) (kv : KV) (f : Field) (fs : List Field) :
    bindFields lower kv (f :: fs) =
      match kv (bindKey lower f) with
      | none => (f :: (bindFields lower kv fs).1, (bindFields lower kv fs).2)
      | some raw =>
        if f.canSet = false then (f :: (bindFields lower kv fs).1, (bindFields lower kv fs).2)
        else
          match bindField (bindKey lower f) f raw with
          | .error e => (f :: fs, some e)
          | .ok g => (g :: (bindFields lower kv fs).1, (bindFields lower kv fs).2) := by
  simp only [bindFields]
  cases kv (bindKey lower f) with
  | none => rfl
  | some raw => cases f.canSet <;> simp

/-- The field loop keeps the number of fields. -/
theorem bindFields_length (lower : Char → Char) (kv : KV) (fs : List Field) :
    (bindFields lower kv fs).1.length = fs.length := by
  induction fs with
  | nil => rfl
  | cons f fs ih =>
    rw [bindFields_cons]
    cases hkv : kv (bindKey lower f) with
    | none => simp [ih]
    | some raw =>
      simp only []
      cases hset : f.canSet with
      | false => simp [ih]
      | true =>
        simp only [Bool.true_eq_false, if_false]
        cases hb : bindField (bindKey lower f) f raw with
        | error e => simp
        | ok g => simp [ih]

/-- When the loop passes the fields `pre` without an error it goes on with the
fields after them. -/
theorem bindFields_append (lower : Char → Char) (kv : KV) (pre rest : List Field)
    (h : (bindFields lower kv pre).2 = none) :
    bindFields lower kv (pre ++ rest) =
      ((bindFields lower kv pre).1 ++ (bindFields lower kv rest).1,
        (bindFields lower kv rest).2) := by
  induction pre with
  | nil => simp [bindFields]
  | cons f fs ih =>
    rw [bindFields_cons] at h
    rw [List.cons_append, bindFields_cons, bindFields_cons]
    cases hkv : kv (bindKey lower f) with
    | none =>
      simp only [hkv] at h ⊢
      simp [ih h]
    | some raw =>
      simp only [hkv] at h ⊢
      cases hset : f.canSet with
      | false =>
        simp only [hset, if_true] at h ⊢
        simp [ih h]
      | true =>
        simp only [hset, Bool.true_eq_false, if_false] at h ⊢
        cases hb : bindField (bindKey lower f) f raw with
        | error e => simp [hb] at h
        | ok g =>
          simp only [hb] at h ⊢
          simp [ih h]

/-! ## Argument claims -/

/-- C8, as the code has it. Argument splitting: a token `k=v` whose `k` has no
`=` is stored under the lower-cased `k`, and the stored value is everything
after that first `=` (further `=` kept) with every leading and every trailing
quote character removed, whichever of the two quotes they are and whether or
not they pair up: of `l ++ m ++ r`, with `l` and `r` runs of quote characters
and `m` neither starting nor ending with one, exactly `m` is stored. -/
theorem parseArgs_split_trim (lower : Char → Char) (ts : List Str) (k l m r : Str)
    (hk : eqSign ∉ k) (hl : ∀ c ∈ l, isQuote c = true) (hr : ∀ c ∈ r, isQuote c = true)
    (hm1 : ∀ c ∈ m.head?, isQuote c = false) (hm2 : ∀ c ∈ m.getLast?, isQuote c = false) :
    parseArgs lower (ts ++ [k ++ [eqSign] ++ (l ++ m ++ r)]) (ToLower lower k) = some m := by
  have e : k ++ [eqSign] ++ (l ++ m ++ r) = k ++ eqSign :: (l ++ m ++ r) := by simp
  have hmem : eqSign ∈ k ++ eqSign :: (l ++ m ++ r) := by simp
  have hne : k ++ eqSign :: (l ++ m ++ r) ≠ [] := by simp
  rw [parseArgs_concat, e]
  unfold parseArgsStep
  rw [if_neg hne, if_pos ((contains_eq_true_iff _ _).2 hmem)]
  simp only [SplitN2_append eqSign k _ hk, Trim_eq isQuote l m r hl hr hm1 hm2]
  simp [KV.set]

/-- C9. Key overwrite and key case: the entry stored under the key of a
non-empty token `t` (the lower-cased text before its first `=`, or the whole
lower-cased token) is the one `t` gives on its own, whatever tokens come before
it, as long as no later token carries the same lower-cased key; and every key
of the map is the lower-cased key text of some token. -/
theorem parseArgs_last_wins (lower : Char → Char) (ts us : List Str) (t : Str) (ht : t ≠ [])
    (hus : ∀ u ∈ us, u ≠ [] →
      ToLower lower (u.takeWhile (fun c => c != eqSign)) ≠
        ToLower lower (t.takeWhile (fun c => c != eqSign))) :
    (parseArgs lower (ts ++ t :: us) (ToLower lower (t.takeWhile (fun c => c != eqSign))) =
        parseArgs lower [t] (ToLower lower (t.takeWhile (fun c => c != eqSign))) ∧
      (parseArgs lower [t] (ToLower lower (t.takeWhile (fun c => c != eqSign)))).isSome = true) ∧
    (∀ k v, parseArgs lower (ts ++ t :: us) k = some v →
      ∃ u ∈ ts ++ t :: us, k = ToLower lower (u.takeWhile (fun c => c != eqSign))) := by
  obtain ⟨w, hw⟩ := parseArgsStep_set lower t ht
  refine ⟨?_, ?_⟩
  · have h1 : parseArgs lower [t] (ToLower lower (t.takeWhile (fun c => c != eqSign))) =
        some w := by
      simp [parseArgs, hw, KV.set]
    rw [h1]
    refine ⟨?_, rfl⟩
    unfold parseArgs
    rw [List.foldl_append, List.foldl_cons, foldl_parseArgsStep_other lower us _ _ hus, hw]
    simp [KV.set]
  · intro k v h
    rcases foldl_parseArgsStep_key lower _ KV.empty k v h with h0 | ⟨u, hu, -, hk⟩
    · simp [KV.empty] at h0
    · exact ⟨u, hu, hk⟩

/-- C10, as the code has it. Bare flag: a non-empty token `t` without `=`,
last among the tokens, is recorded as key `lower(t)` with the value "true";
binding then sets to true a boolean field that can be set (an exported field)
whose binding key is `lower(t)`, once the fields before it are passed without
an error; and when no field has that key the token is ignored: binding gives
what it gives without the token, and with that token alone it succeeds and
leaves every field as it was. -/
theorem bare_flag (lower : Char → Char) (ts : List Str) (t : Str) (ht : t ≠ [])
    (heq : eqSign ∉ t) :
    parseArgs lower (ts ++ [t]) (ToLower lower t) = some "true".toList ∧
    (∀ (n : Str) (pre post : List Field) (f : Field), f.kind = .bool → f.canSet = true →
      bindKey lower f = ToLower lower t →
      (bindFields lower (parseArgs lower (ts ++ [t])) pre).2 = none →
      ∃ s, (bindArgs lower (.ptrStruct ⟨n, pre ++ f :: post⟩) (parseArgs lower (ts ++ [t]))).1 =
          .ptrStruct s ∧
        s.fields[pre.length]? = some { f with val := .bool true }) ∧
    (∀ s : Struct, (∀ f ∈ s.fields, bindKey lower f ≠ ToLower lower t) →
      bindArgs lower (.ptrStruct s) (parseArgs lower (ts ++ [t])) =
          bindArgs lower (.ptrStruct s) (parseArgs lower ts) ∧
        bindArgs lower (.ptrStruct s) (parseArgs lower [t]) = (.ptrStruct s, none)) := by
  have hstep : ∀ m : KV, parseArgsStep lower m t = m.set (ToLower lower t) "true".toList := by
    intro m
    simp [parseArgsStep, ht, heq]
  have hkv : parseArgs lower (ts ++ [t]) (ToLower lower t) = some "true".toList := by
    rw [parseArgs_concat, hstep]
    simp [KV.set]
  refine ⟨hkv, ?_, ?_⟩
  · intro n pre post f hkind hset hkey hpre
    refine ⟨_, rfl, ?_⟩
    have hb : bindField (bindKey lower f) f "true".toList = .ok { f with val := .bool true } := by
      have hp : ParseBool "true".toList = some true := by decide
      simp only [bindField, hkind, hp]
    have hcons : (bindFields lower (parseArgs lower (ts ++ [t])) (f :: post)).1 =
        { f with val := .bool true } ::
          (bindFields lower (parseArgs lower (ts ++ [t])) post).1 := by
      rw [bindFields_cons, hkey, hkv]
      simp only [hset, Bool.true_eq_false, if_false]
      rw [← hkey, hb]
      simp [hset]
    simp only [bindFields_append lower _ pre (f :: post) hpre, hcons]
    rw [List.getElem?_append_right (by rw [bindFields_length])]
    simp [bindFields_length]
  · intro s hs
    have hsame : ∀ f ∈ s.fields,
        parseArgs lower (ts ++ [t]) (bindKey lower f) = parseArgs lower ts (bindKey lower f) := by
      intro f hf
      rw [parseArgs_concat, hstep]
      simp [KV.set, hs f hf]
    have hnone : ∀ f ∈ s.fields, parseArgs lower [t] (bindKey lower f) = none := by
      intro f hf
      have := parseArgs_concat lower [] t
      simp only [List.nil_append] at this
      rw [this, hstep]
      simp [KV.set, hs f hf, parseArgs, KV.empty]
    constructor
    · simp only [bindArgs, bindFields_congr lower _ _ s.fields hsame]
    · simp only [bindArgs, bindFields_absent lower _ s.fields hnone]

/-! ## Concrete instances -/

/-- The calls of `registerCommands` do not panic, and the paths registered are
these twenty, in this order. -/
theorem registerCommands_paths :
    (registerCommands Char.toLower NewParser).isSome = true ∧
    cliParser.commands.map (fun d => d.Path) =
      [["table".toList], ["tables".toList], ["s3".toList], ["s3".toList, "help".toList],
       ["s3".toList, "h".toList], ["s3".toList, "list".toList], ["s3".toList, "add".toList],
       ["s3".toList, "delete".toList], ["stats".toList], ["head".toList], ["query".toList],
       ["delete".toList], ["backup".toList], ["restore".toList], ["config".toList],
       ["config".toList, "help".toList], ["config".toList, "h".toList],
       ["config".toList, "show".toList], ["config".toList, "set".toList],
       ["config".toList, "reset".toList]] := by
  decide

/-- Instance of C1 on the registry with paths `s3` and `s3 add`: the line
`s3 add name=x` selects the two-word path, the line `s3` the one-word path. -/
theorem Parse_longest_match_witness :
    outcome (s3Parser.Parse Char.toLower "s3 add name=x".toList) =
      .ok (["s3".toList, "add".toList], S3AddNamed "x") ∧
    outcome (s3Parser.Parse Char.toLower "s3".toList) = .ok (["s3".toList], S3Help) ∧
    (∀ d ∈ s3Parser.commands,
      d.Path <+: (tokenize "s3 add name=x".toList).map (ToLower Char.toLower) →
        d.Path.length ≤ 2) :=
  ⟨rfl, rfl,
    (Parse_longest_match Char.toLower s3Parser "s3 add name=x".toList
      ⟨⟨["s3".toList, "add".toList], fun _ => S3Add⟩, S3AddNamed "x"⟩ rfl).2.2.2.1⟩

/-- Instance of C2: `frobnicate` matches no path registered by
`registerCommands`. -/
theorem Parse_unknown_command_witness :
    (∀ d ∈ cliParser.commands, d.Path ≠ []) ∧ tokenize "frobnicate".toList ≠ [] ∧
    cliParser.Parse Char.toLower "frobnicate".toList =
      .error (.unknownCommand "frobnicate".toList) :=
  ⟨by decide, by decide,
    (Parse_unknown_command_iff Char.toLower cliParser "frobnicate".toList
      (by decide) (by decide)).2 (by decide)⟩

/-- Instance of the amended C3: a line of a space, a tab and a space. -/
theorem Parse_empty_input_witness :
    (∀ c ∈ [space, tab, space], isBlank c = true) ∧ tokenize [space, tab, space] = [] ∧
    cliParser.Parse Char.toLower [space, tab, space] = .error .emptyInput :=
  ⟨by decide, (Parse_empty_input Char.toLower cliParser [space, tab, space]).1 (by decide)⟩

/-- Instance of the amended C4: blanks before, between and after three words. -/
theorem tokenize_no_quotes_witness :
    (∀ c ∈ "  s3 add".toList ++ [tab] ++ "name=x ".toList, isQuote c = false) ∧
    tokenize ("  s3 add".toList ++ [tab] ++ "name=x ".toList) =
      splitRuns isBlank ("  s3 add".toList ++ [tab] ++ "name=x ".toList) ∧
    splitRuns isBlank ("  s3 add".toList ++ [tab] ++ "name=x ".toList) =
      ["s3".toList, "add".toList, "name=x".toList] :=
  ⟨by decide, tokenize_no_quotes _ (by decide), by decide⟩

/-- Instance of C5: the line `a "b c" d`. -/
theorem tokenize_quoted_span_witness :
    isQuote dquote = true ∧ dquote ∉ "b c".toList ∧
    tokenize ("a".toList ++ [space] ++ [dquote] ++ "b c".toList ++ [dquote] ++ [space] ++
      "d".toList) = ["a".toList, "b c".toList, "d".toList] :=
  ⟨by decide, by decide,
    (tokenize_quoted_span dquote (by decide) "b c".toList (by decide)).2 "a".toList "d".toList
      (by decide) (by decide) (by decide) (by decide) (by decide)⟩

/-- Instance of C6: the line `a "b c`. -/
theorem tokenize_unterminated_quote_witness :
    isQuote dquote = true ∧ dquote ∉ "b c".toList ∧
    tokenize ("a".toList ++ [space] ++ [dquote] ++ "b c".toList) =
      ["a".toList, "b c".toList] :=
  ⟨by decide, by decide,
    (tokenize_unterminated_quote dquote (by decide) "b c".toList (by decide)).2.2 "a".toList
      (by decide) (by decide) (by decide)⟩

/-- Instance of C7: a single quote and blanks between double quotes, and a
double quote between single quotes. -/
theorem tokenize_other_quote_literal_witness :
    tokenize ([dquote] ++ ("it".toList ++ [squote] ++ "s on".toList) ++ [dquote]) =
      ["it".toList ++ [squote] ++ "s on".toList] ∧
    tokenize ([squote] ++ ("say ".toList ++ [dquote] ++ "hi".toList) ++ [squote]) =
      ["say ".toList ++ [dquote] ++ "hi".toList] :=
  ⟨(tokenize_other_quote_literal dquote (by decide) _ (by decide) (by decide)).2,
    (tokenize_other_quote_literal squote (by decide) _ (by decide) (by decide)).2⟩

/-- C8 as stated fails: the value `'v` (a quote at one end only, reached from
the line `k="'v"`) is stored as `v`, not kept; and the value `""v""` is stored
as `v`, not as `"v"`. -/
theorem parseArgs_trim_counterexample :
    tokenize ("k=".toList ++ [dquote, squote] ++ "v".toList ++ [dquote]) =
      ["k=".toList ++ [squote] ++ "v".toList] ∧
    parseArgs Char.toLower ["k=".toList ++ [squote] ++ "v".toList] "k".toList =
      some "v".toList ∧
    parseArgs Char.toLower ["k=".toList ++ [squote] ++ "v".toList] "k".toList ≠
      some ([squote] ++ "v".toList) ∧
    parseArgs Char.toLower ["k=".toList ++ [dquote, dquote] ++ "v".toList ++ [dquote, dquote]]
      "k".toList = some "v".toList ∧
    parseArgs Char.toLower ["k=".toList ++ [dquote, dquote] ++ "v".toList ++ [dquote, dquote]]
      "k".toList ≠ some ([dquote] ++ "v".toList ++ [dquote]) := by
  decide

/-- Instance of the amended C8: the token `Name="'a=b"` (after a first token)
is stored under `name` with the value `a=b`. -/
theorem parseArgs_split_trim_witness :
    eqSign ∉ "Name".toList ∧
    parseArgs Char.toLower (["x=1".toList] ++
        ["Name".toList ++ [eqSign] ++ ([dquote, squote] ++ "a=b".toList ++ [dquote])])
      "name".toList = some "a=b".toList :=
  ⟨by decide,
    parseArgs_split_trim Char.toLower ["x=1".toList] "Name".toList [dquote, squote] "a=b".toList
      [dquote] (by decide) (by decide) (by decide) (by decide) (by decide)⟩

/-- Instance of C9: of `table=a table=b` the second token gives the entry of
`table`, and `query table=a table=b` and `query TABLE=a Table=b` both yield a
`Query` whose `Table` is `b`. -/
theorem parseArgs_last_wins_witness :
    parseArgs Char.toLower (["table=a".toList] ++ "Table=b".toList :: []) "table".toList =
      parseArgs Char.toLower ["Table=b".toList] "table".toList ∧
    parseArgs Char.toLower ["Table=b".toList] "table".toList = some "b".toList ∧
    outcome (cliParser.Parse Char.toLower "query table=a table=b".toList) =
      .ok (["query".toList], QueryOf "b") ∧
    outcome (cliParser.Parse Char.toLower "query TABLE=a Table=b".toList) =
      .ok (["query".toList], QueryOf "b") :=
  ⟨(parseArgs_last_wins Char.toLower ["table=a".toList] [] "Table=b".toList (by decide)
      (by simp)).1.1, by decide, rfl, rfl⟩

/-- C10 as stated fails on a field that cannot be set: the bare token `verbose`
is recorded under the binding key of the unexported boolean field `verbose`,
and binding returns no error and leaves the field false. -/
theorem bare_flag_unexported_counterexample :
    parseArgs Char.toLower ["verbose".toList] (ToLower Char.toLower "verbose".toList) =
      some "true".toList ∧
    bindArgs Char.toLower hiddenFlag (parseArgs Char.toLower ["verbose".toList]) =
      (hiddenFlag, none) := by
  decide

/-- Instance of the amended C10: the bare token `verbose` is recorded as
`verbose` = "true"; `s3 add verbose` parses to an `S3Add` whose `Name` is
empty; an exported boolean field `Verbose` is set to true. -/
theorem bare_flag_witness :
    parseArgs Char.toLower ([] ++ ["verbose".toList]) (ToLower Char.toLower "verbose".toList) =
      some "true".toList ∧
    outcome (cliParser.Parse Char.toLower "s3 add verbose".toList) =
      .ok (["s3".toList, "add".toList], S3AddNamed "") ∧
    bindArgs Char.toLower visibleFlag (parseArgs Char.toLower ["verbose".toList]) =
      (.ptrStruct ⟨"visibleFlag".toList, [⟨"Verbose".toList, [], .bool, true, .bool true⟩]⟩,
        none) :=
  ⟨(bare_flag Char.toLower [] "verbose".toList (by decide) (by decide)).1, rfl, by decide⟩

/-! ## Binder: frame and provenance of errors -/

/-- A field whose binding key is absent from the map is left as it is, whether
or not the loop returns an error. -/
theorem bindFields_frame (lower : Char → Char) (kv : KV) (fs : List Field) (i : Nat)
    (f : Field) (hf : fs[i]? = some f) (hk : kv (bindKey lower f) = none) :
    (bindFields lower kv fs).1[i]? = some f := by
  induction fs generalizing i with
  | nil => simp at hf
  | cons g gs ih =>
    rw [bindFields_cons]
    cases i with
    | zero =>
      simp only [List.getElem?_cons_zero, Option.some.injEq] at hf
      subst hf
      simp [hk]
    | succ j =>
      simp only [List.getElem?_cons_succ] at hf
      have hj := ih j hf
      cases hkv : kv (bindKey lower g) with
      | none => simpa using hj
      | some raw =>
        simp only []
        cases hset : g.canSet with
        | false => simpa using hj
        | true =>
          simp only [Bool.true_eq_false, if_false]
          cases hb : bindField (bindKey lower g) g raw with
          | error e => simpa using hf
          | ok g2 => simpa using hj

/-- An error of the field loop is the coercion error of one of the fields, on
the raw value the map holds for its binding key. -/
theorem bindFields_error_field (lower : Char → Char) (kv : KV) (fs : List Field) (e : Error)
    (h : (bindFields lower kv fs).2 = some e) :
    ∃ f ∈ fs, ∃ raw, kv (bindKey lower f) = some raw ∧ f.canSet = true ∧
      bindField (bindKey lower f) f raw = .error e := by
  induction fs with
  | nil => simp [bindFields] at h
  | cons g gs ih =>
    rw [bindFields_cons] at h
    have lift : (∃ f ∈ gs, ∃ raw, kv (bindKey lower f) = some raw ∧ f.canSet = true ∧
        bindField (bindKey lower f) f raw = .error e) →
        ∃ f ∈ g :: gs, ∃ raw, kv (bindKey lower f) = some raw ∧ f.canSet = true ∧
          bindField (bindKey lower f) f raw = .error e :=
      fun ⟨f, hf, r⟩ => ⟨f, List.mem_cons_of_mem _ hf, r⟩
    cases hkv : kv (bindKey lower g) with
    | none => simp only [hkv] at h; exact lift (ih h)
    | some raw =>
      simp only [hkv] at h
      cases hset : g.canSet with
      | false => simp only [hset, if_true] at h; exact lift (ih h)
      | true =>
        simp only [hset, Bool.true_eq_false, if_false] at h
        cases hb : bindField (bindKey lower g) g raw with
        | error e1 =>
          simp only [hb, Option.some.injEq] at h
          subst h
          exact ⟨g, List.mem_cons_self _ _, raw, hkv, hset, hb⟩
        | ok g2 => simp only [hb] at h; exact lift (ih h)

/-- C11. Binding frame: `bindArgs` on a pointer to a struct keeps the number
and order of the fields, and every field whose binding key (lower-cased `cli`
tag, else lower-cased name) is absent from the map has afterwards the value it
had before, whether or not an error is returned; a map key that is the binding
key of no field changes nothing in the outcome, so it causes no error; and an
error, when there is one, is the coercion error of a field on the raw value of
its own binding key. -/
theorem bindArgs_frame (lower : Char → Char) (kv : KV) (n : Str) (fs : List Field) :
    (∃ gs, (bindArgs lower (.ptrStruct ⟨n, fs⟩) kv).1 = .ptrStruct ⟨n, gs⟩ ∧
      gs.length = fs.length ∧
      ∀ (i : Nat) (f : Field), fs[i]? = some f → kv (bindKey lower f) = none →
        gs[i]? = some f) ∧
    (∀ k v, (∀ f ∈ fs, bindKey lower f ≠ k) →
      bindArgs lower (.ptrStruct ⟨n, fs⟩) (kv.set k v) = bindArgs lower (.ptrStruct ⟨n, fs⟩) kv) ∧
    (∀ e, (bindArgs lower (.ptrStruct ⟨n, fs⟩) kv).2 = some e →
      ∃ f ∈ fs, ∃ raw, kv (bindKey lower f) = some raw ∧ f.canSet = true ∧
        bindField (bindKey lower f) f raw = .error e) := by
  refine ⟨⟨(bindFields lower kv fs).1, rfl, bindFields_length lower kv fs,
    fun i f hf hk => bindFields_frame lower kv fs i f hf hk⟩, ?_, ?_⟩
  · intro k v hk
    have : bindFields lower (kv.set k v) fs = bindFields lower kv fs :=
      bindFields_congr lower _ _ fs (fun f hf => by simp [KV.set, hk f hf])
    simp only [bindArgs, this]
  · intro e he
    exact bindFields_error_field lower kv fs e he

/-- Instance of C11: `query foo=bar table=t` parses to a `Query` with `Table`
`t` and the other fields at their zero values, and the entry `foo` makes no
difference to binding a `Query`. -/
theorem bindArgs_frame_witness :
    outcome (cliParser.Parse Char.toLower "query foo=bar table=t".toList) =
      .ok (["query".toList], QueryWith "t" 0) ∧
    bindArgs Char.toLower (.ptrStruct ⟨"Query".toList, rangeFields⟩)
        ((parseArgs Char.toLower ["table=t".toList]).set "foo".toList "bar".toList) =
      bindArgs Char.toLower (.ptrStruct ⟨"Query".toList, rangeFields⟩)
        (parseArgs Char.toLower ["table=t".toList]) :=
  ⟨rfl, (bindArgs_frame Char.toLower (parseArgs Char.toLower ["table=t".toList])
      "Query".toList rangeFields).2.1 "foo".toList "bar".toList (by decide)⟩

/-! ## Decimal numerals and the `strconv` parsers -/

theorem digitVal_of_isDigit {c : Char} (h : isDigit c = true) :
    digitVal c = some (c.toNat - 48) := by
  simp only [isDigit, Bool.and_eq_true, decide_eq_true_eq] at h
  simp [digitVal, h.1, h.2]

theorem digitVal_of_not_isDigit {c : Char} (h : isDigit c = false) : digitVal c = none := by
  have h2 : ¬ (48 ≤ c.toNat ∧ c.toNat ≤ 57) := by
    intro hc
    simp [isDigit, hc.1, hc.2] at h
  simp [digitVal, h2]

theorem decimal_cons (c : Char) (cs : Str) :
    decimal (c :: cs) = (c.toNat - 48) * 10 ^ cs.length + decimal cs := by
  simp only [decimal, List.reverse_cons, List.map_append, List.map_cons, List.map_nil,
    Nat.ofDigits_append, Nat.ofDigits_singleton, List.length_map, List.length_reverse]
  ring

/-- On a run of digits the accumulator loop computes the positional value. -/
theorem parseDigits_digits (s : Str) (acc : Nat) (h : ∀ c ∈ s, isDigit c = true) :
    parseDigits acc s = some (acc * 10 ^ s.length + decimal s) := by
  induction s generalizing acc with
  | nil => simp [parseDigits, decimal]
  | cons c cs ih =>
    rw [parseDigits, digitVal_of_isDigit (h c (List.mem_cons_self _ _))]
    simp only
    rw [ih _ (fun d hd => h d (List.mem_cons_of_mem _ hd)), decimal_cons]
    simp only [List.length_cons, Option.some.injEq]
    ring

/-- The accumulator loop fails as soon as one rune is not a digit. -/
theorem parseDigits_nondigit (s : Str) (acc : Nat) (h : ¬ ∀ c ∈ s, isDigit c = true) :
    parseDigits acc s = none := by
  induction s generalizing acc with
  | nil => exact absurd (fun c hc => by simp at hc) h
  | cons c cs ih =>
    rw [parseDigits]
    cases hc : isDigit c with
    | false => rw [digitVal_of_not_isDigit hc]
    | true =>
      rw [digitVal_of_isDigit hc]
      simp only
      refine ih _ (fun hall => h ?_)
      intro d hd
      rcases List.mem_cons.1 hd with rfl | hd
      · exact hc
      · exact hall d hd

/-- The part of `ParseInt` after the sign: digits only, at least one, and a
value within the `int64` range for the sign read. -/
theorem parseInt_body (neg : Bool) (body : Str) (v : Int) :
    (if body = [] then none
      else
        match parseDigits 0 body with
        | none => none
        | some un =>
          if !neg && un ≥ 2 ^ 63 then none
          else if neg && un > 2 ^ 63 then none
          else some (if neg then - (un : Int) else (un : Int))) = some v ↔
    body ≠ [] ∧ (∀ c ∈ body, isDigit c = true) ∧
      v = (if neg then - (decimal body : Int) else (decimal body : Int)) ∧
      - 2 ^ 63 ≤ v ∧ v < 2 ^ 63 := by
  by_cases hb : body = []
  · simp [hb]
  · by_cases hd : ∀ c ∈ body, isDigit c = true
    · rw [if_neg hb, parseDigits_digits body 0 hd]
      simp only [Nat.zero_mul, Nat.zero_add]
      have hnn : (0 : Int) ≤ (decimal body : Int) := Int.ofNat_nonneg _
      cases neg with
      | false =>
        by_cases hr : decimal body ≥ 2 ^ 63
        · have hr2 : ¬ ((decimal body : Int) < 2 ^ 63) := by
            intro hlt
            have : (decimal body : Int) ≥ 2 ^ 63 := by exact_mod_cast hr
            omega
          simp only [Bool.not_false, Bool.true_and, decide_eq_true_eq, hr, if_true]
          constructor
          · intro h; cases h
          · rintro ⟨-, -, hv, -, hlt⟩
            simp only [Bool.false_eq_true, if_false] at hv
            rw [hv] at hlt
            exact absurd hlt hr2
        · have hr2 : (decimal body : Int) < 2 ^ 63 := by
            have : decimal body < 2 ^ 63 := by omega
            exact_mod_cast this
          simp only [Bool.not_false, Bool.true_and, decide_eq_true_eq, hr, if_false,
            Bool.false_and, Bool.false_eq_true, Option.some.injEq]
          constructor
          · intro h
            subst h
            exact ⟨hb, hd, rfl, by omega, hr2⟩
          · rintro ⟨-, -, hv, -, -⟩
            exact hv.symm
      | true =>
        by_cases hr : decimal body > 2 ^ 63
        · have hr2 : ¬ (- 2 ^ 63 ≤ - (decimal body : Int)) := by
            intro hle
            have : (decimal body : Int) > 2 ^ 63 := by exact_mod_cast hr
            omega
          simp only [Bool.not_true, Bool.false_and, Bool.false_eq_true, if_false, Bool.true_and,
            decide_eq_true_eq, hr, if_true]
          constructor
          · intro h; cases h
          · rintro ⟨-, -, hv, hle, -⟩
            rw [hv] at hle
            exact absurd hle hr2
        · have hr2 : (decimal body : Int) ≤ 2 ^ 63 := by
            have : decimal body ≤ 2 ^ 63 := by omega
            exact_mod_cast this
          simp only [Bool.not_true, Bool.false_and, Bool.false_eq_true, if_false, Bool.true_and,
            decide_eq_true_eq, hr, if_true, Option.some.injEq]
          constructor
          · intro h
            subst h
            exact ⟨hb, hd, rfl, by omega, by omega⟩
          · rintro ⟨-, -, hv, -, -⟩
            exact hv.symm
    · rw [if_neg hb, parseDigits_nondigit body 0 hd]
      constructor
      · intro h; cases h
      · rintro ⟨-, hall, -⟩
        exact absurd hall hd

/-- What `ParseUint` accepts: a non-empty run of decimal digits, without a
sign, whose value is below 2^64; the result is that value. -/
theorem ParseUint_iff (raw : Str) (n : Nat) :
    ParseUint raw = some n ↔
      raw ≠ [] ∧ (∀ c ∈ raw, isDigit c = true) ∧ n = decimal raw ∧ n < 2 ^ 64 := by
  unfold ParseUint
  by_cases hb : raw = []
  · simp [hb]
  · rw [if_neg hb]
    by_cases hd : ∀ c ∈ raw, isDigit c = true
    · rw [parseDigits_digits raw 0 hd]
      simp only [Nat.zero_mul, Nat.zero_add]
      by_cases hr : decimal raw < 2 ^ 64
      · simp only [hr, if_true, Option.some.injEq]
        constructor
        · intro h
          subst h
          exact ⟨hb, hd, rfl, hr⟩
        · rintro ⟨-, -, hv, -⟩
          exact hv.symm
      · simp only [hr, if_false]
        constructor
        · intro h; cases h
        · rintro ⟨-, -, hv, hlt⟩
          rw [hv] at hlt
          exact absurd hlt hr
    · rw [parseDigits_nondigit raw 0 hd]
      constructor
      · intro h; cases h
      · rintro ⟨-, hall, -⟩
        exact absurd hall hd

/-- What `ParseInt` accepts: a base-10 numeral (optional sign, at least one
digit) for a value within the `int64` range; the result is that value. -/
theorem ParseInt_iff (raw : Str) (v : Int) :
    ParseInt raw = some v ↔ denotesInt raw v ∧ - 2 ^ 63 ≤ v ∧ v < 2 ^ 63 := by
  cases raw with
  | nil =>
    constructor
    · intro h; cases h
    · rintro ⟨⟨ds, hne, -, h | h | h⟩, -⟩
      · exact absurd h.1.symm hne
      · cases h.1
      · cases h.1
  | cons c cs =>
    refine Iff.trans (parseInt_body (c == Char.ofNat 45)
      (if c == Char.ofNat 43 || c == Char.ofNat 45 then cs else c :: cs) v) ?_
    have hplus : isDigit (Char.ofNat 43) = false := by decide
    have hminus : isDigit (Char.ofNat 45) = false := by decide
    by_cases h43 : c = Char.ofNat 43
    · subst h43
      have e1 : (Char.ofNat 43 == Char.ofNat 45) = false := by decide
      simp only [e1, beq_self_eq_true, Bool.true_or, if_true, Bool.false_eq_true, if_false]
      constructor
      · rintro ⟨hne, hd, hv, hr⟩
        exact ⟨⟨cs, hne, hd, Or.inr (Or.inl ⟨rfl, hv⟩)⟩, hr⟩
      · rintro ⟨⟨ds, hne, hd, h | h | h⟩, hr⟩
        · have := hd (Char.ofNat 43) (h.1 ▸ List.mem_cons_self _ _)
          rw [hplus] at this
          cases this
        · have hcs : cs = ds := List.tail_eq_of_cons_eq h.1
          subst hcs
          exact ⟨hne, hd, h.2, hr⟩
        · have := List.head_eq_of_cons_eq h.1
          exact absurd this (by decide)
    · by_cases h45 : c = Char.ofNat 45
      · subst h45
        simp only [beq_self_eq_true, Bool.or_true, if_true]
        constructor
        · rintro ⟨hne, hd, hv, hr⟩
          exact ⟨⟨cs, hne, hd, Or.inr (Or.inr ⟨rfl, hv⟩)⟩, hr⟩
        · rintro ⟨⟨ds, hne, hd, h | h | h⟩, hr⟩
          · have := hd (Char.ofNat 45) (h.1 ▸ List.mem_cons_self _ _)
            rw [hminus] at this
            cases this
          · have := List.head_eq_of_cons_eq h.1
            exact absurd this (by decide)
          · have hcs : cs = ds := List.tail_eq_of_cons_eq h.1
            subst hcs
            exact ⟨hne, hd, h.2, hr⟩
      · have e1 : (c == Char.ofNat 43) = false := by simpa using h43
        have e2 : (c == Char.ofNat 45) = false := by simpa using h45
        simp only [e1, e2, Bool.or_self, Bool.false_eq_true, if_false]
        constructor
        · rintro ⟨hne, hd, hv, hr⟩
          exact ⟨⟨c :: cs, hne, hd, Or.inl ⟨rfl, hv⟩⟩, hr⟩
        · rintro ⟨⟨ds, hne, hd, h | h | h⟩, hr⟩
          · have hcs : c :: cs = ds := h.1
            subst hcs
            exact ⟨hne, hd, h.2, hr⟩
          · exact absurd (List.head_eq_of_cons_eq h.1) h43
          · exact absurd (List.head_eq_of_cons_eq h.1) h45

/-! ## Binder: the cases of the switch -/

theorem bindField_string {tag : Str} {f : Field} (raw : Str) (h : f.kind = .string) :
    bindField tag f raw = .ok { f with val := .str raw } := by
  simp only [bindField, h]

/-- The signed case of the switch: `ParseInt` at 64 bits, then `SetInt`. -/
theorem bindField_int {tag : Str} {f : Field} (raw : Str) (h : f.kind.isInt = true) :
    bindField tag f raw =
      match ParseInt raw with
      | none => .error (.invalidInt tag raw)
      | some v => .ok { f with val := .int (wrapInt f.kind.bits v) } := by
  unfold bindField
  cases hk : f.kind <;> simp [hk, Kind.isInt] at h ⊢

/-- The unsigned case of the switch: `ParseUint` at 64 bits, then `SetUint`. -/
theorem bindField_uint {tag : Str} {f : Field} (raw : Str) (h : f.kind.isUint = true) :
    bindField tag f raw =
      match ParseUint raw with
      | none => .error (.invalidUint tag raw)
      | some v => .ok { f with val := .uint (wrapUint f.kind.bits v) } := by
  unfold bindField
  cases hk : f.kind <;> simp [hk, Kind.isUint] at h ⊢

/-- Text fields never make the loop fail. -/
theorem bindFields_strings (lower : Char → Char) (kv : KV) (fs : List Field)
    (h : ∀ f ∈ fs, f.kind = .string) : (bindFields lower kv fs).2 = none := by
  cases he : (bindFields lower kv fs).2 with
  | none => rfl
  | some e =>
    obtain ⟨f, hf, raw, -, -, hb⟩ := bindFields_error_field lower kv fs e he
    rw [bindField_string raw (h f hf)] at hb
    cases hb

/-- The error of binding the fields of `Head`, `Query` and `Delete`: it can
only come from `Limit`. -/
theorem bindFields_range_error (lower : Char → Char) (kv : KV) :
    (bindFields lower kv rangeFields).2 =
      match kv (ToLower lower "limit".toList) with
      | none => none
      | some raw =>
        match ParseInt raw with
        | none => some (.invalidInt (ToLower lower "limit".toList) raw)
        | some _ => none := by
  have hsplit : rangeFields =
      [textField "Table" "table", textField "Prefix" "prefix", textField "From" "from",
        textField "To" "to"] ++ [intField "Limit" "limit"] := rfl
  have hpre : (bindFields lower kv [textField "Table" "table", textField "Prefix" "prefix",
      textField "From" "from", textField "To" "to"]).2 = none :=
    bindFields_strings lower kv _ (by
      intro f hf
      simp only [List.mem_cons, List.mem_singleton, List.not_mem_nil, or_false] at hf
      rcases hf with rfl | rfl | rfl | rfl <;> rfl)
  have hk : bindKey lower (intField "Limit" "limit") = ToLower lower "limit".toList := by
    have : (intField "Limit" "limit").cli ≠ [] := by decide
    simp only [bindKey, if_neg this]
    rfl
  have hset : (intField "Limit" "limit").canSet = true := rfl
  rw [hsplit, bindFields_append lower kv _ _ hpre]
  simp only
  rw [bindFields_cons, hk]
  cases hkv : kv (ToLower lower "limit".toList) with
  | none => simp [bindFields]
  | some raw =>
    simp only [hset, Bool.true_eq_false, if_false]
    rw [bindField_int raw (by rfl)]
    cases hp : ParseInt raw with
    | none => simp
    | some v => simp [bindFields]

/-- C12. Numeric coercion failure: when the matched definition builds a value
with the fields of `Head`, `Query` and `Delete`, `Parse` fails exactly when the
map of the argument tokens binds the key `limit` to a raw value that is not a
base-10 numeral (optional sign, at least one digit) of an integer in the
`int64` range, and the error is then the invalid-int error carrying that key
and that raw value; so a valid value never makes the parse fail. -/
theorem limit_coercion (lower : Char → Char) (p : Parser) (line : Str) (best : Command)
    (n : Str) (hne : tokenize line ≠ [])
    (hb : (findBest lower p.commands (tokenize line)).1 = some best)
    (hshape : best.New () = .ptrStruct ⟨n, rangeFields⟩) (e : Error) :
    p.Parse lower line = .error e ↔
      ∃ raw, parseArgs lower ((tokenize line).drop best.Path.length)
          (ToLower lower "limit".toList) = some raw ∧
        (¬ ∃ v : Int, denotesInt raw v ∧ - 2 ^ 63 ≤ v ∧ v < 2 ^ 63) ∧
        e = .invalidInt (ToLower lower "limit".toList) raw := by
  obtain ⟨-, -, -, hlen, -⟩ := findBest_some lower _ _ best hb
  rw [Parse_cons lower p line hne]
  simp only [hb, hlen, hshape, bindArgs]
  have herr := bindFields_range_error lower
    (parseArgs lower ((tokenize line).drop best.Path.length))
  generalize hr : bindFields lower
    (parseArgs lower ((tokenize line).drop best.Path.length)) rangeFields = r at herr
  obtain ⟨gs, err⟩ := r
  simp only at herr
  cases hkv : parseArgs lower ((tokenize line).drop best.Path.length)
      (ToLower lower "limit".toList) with
  | none =>
    rw [hkv] at herr
    simp only at herr
    subst herr
    simp
  | some raw =>
    rw [hkv] at herr
    simp only at herr
    cases hp : ParseInt raw with
    | none =>
      rw [hp] at herr
      simp only at herr
      subst herr
      have hinv : ¬ ∃ v : Int, denotesInt raw v ∧ - 2 ^ 63 ≤ v ∧ v < 2 ^ 63 := by
        rintro ⟨v, hv⟩
        have := (ParseInt_iff raw v).2 hv
        rw [hp] at this
        cases this
      simp only [Except.error.injEq, Option.some.injEq, exists_eq_left']
      constructor
      · intro h
        exact ⟨hinv, h.symm⟩
      · rintro ⟨-, h⟩
        exact h.symm
    | some v =>
      rw [hp] at herr
      simp only at herr
      subst herr
      have hval := (ParseInt_iff raw v).1 hp
      simp only [Option.some.injEq, exists_eq_left']
      constructor
      · intro h; cases h
      · rintro ⟨hinv, -⟩
        exact absurd ⟨v, hval⟩ hinv

/-- Instance of C12: `query limit=abc` fails with the invalid-int error for the
key `limit` and the raw value `abc`, and `query limit=12` does not fail. -/
theorem limit_coercion_witness :
    cliParser.Parse Char.toLower "query limit=abc".toList =
      .error (.invalidInt "limit".toList "abc".toList) ∧
    outcome (cliParser.Parse Char.toLower "query limit=12".toList) =
      .ok (["query".toList], QueryWith "" 12) :=
  ⟨(limit_coercion Char.toLower cliParser "query limit=abc".toList
      ⟨["query".toList], fun _ => Query⟩ "Query".toList (by decide) rfl rfl
      (.invalidInt "limit".toList "abc".toList)).2
      ⟨"abc".toList, by decide, fun ⟨v, hv⟩ =>
        Option.noConfusion (((by decide : ParseInt "abc".toList = none)).symm.trans
          ((ParseInt_iff "abc".toList v).2 hv)), rfl⟩,
    rfl⟩

/-! ## Registry -/

/-- Every piece of a split is made of non-separator characters of the text. -/
theorem splitOnP_mem_chars (sep : Char → Bool) (s : Str) :
    ∀ w ∈ s.splitOnP sep, ∀ c ∈ w, c ∈ s ∧ sep c = false := by
  induction s with
  | nil =>
    intro w hw c hc
    simp only [List.splitOnP_nil, List.mem_singleton] at hw
    subst hw
    simp at hc
  | cons x xs ih =>
    intro w hw c hc
    rw [List.splitOnP_cons] at hw
    by_cases hx : sep x = true
    · simp only [hx, if_true, List.mem_cons] at hw
      rcases hw with rfl | hw
      · simp at hc
      · exact ⟨List.mem_cons_of_mem _ (ih w hw c hc).1, (ih w hw c hc).2⟩
    · simp only [hx, if_false] at hw
      obtain ⟨hd, tl, hsp⟩ : ∃ hd tl, xs.splitOnP sep = hd :: tl := by
        cases hsp : xs.splitOnP sep with
        | nil => exact absurd hsp (List.splitOnP_ne_nil _ _)
        | cons hd tl => exact ⟨hd, tl, rfl⟩
      rw [hsp] at hw ih
      simp only [List.modifyHead_cons] at hw
      rcases List.mem_cons.1 hw with hw | hw
      · rw [hw] at hc
        rcases List.mem_cons.1 hc with hcx | hc
        · rw [hcx]
          exact ⟨List.mem_cons_self _ _, by simpa using hx⟩
        · have := ih hd (List.mem_cons_self _ _) c hc
          exact ⟨List.mem_cons_of_mem _ this.1, this.2⟩
      · have := ih w (List.mem_cons_of_mem _ hw) c hc
        exact ⟨List.mem_cons_of_mem _ this.1, this.2⟩

/-- Every word of `splitRuns` is non-empty and made of non-separator characters
of the text. -/
theorem splitRuns_mem (sep : Char → Bool) (s w : Str) (hw : w ∈ splitRuns sep s) :
    w ≠ [] ∧ ∀ c ∈ w, c ∈ s ∧ sep c = false := by
  simp only [splitRuns, List.mem_filter] at hw
  refine ⟨?_, splitOnP_mem_chars sep s w hw.1⟩
  intro h
  rw [h] at hw
  simp at hw

/-- `splitRuns` gives no word exactly when every character is a separator. -/
theorem splitRuns_eq_nil_iff (sep : Char → Bool) (s : Str) :
    splitRuns sep s = [] ↔ ∀ c ∈ s, sep c = true := by
  induction s with
  | nil => simp [splitRuns]
  | cons x xs ih =>
    by_cases hx : sep x = true
    · rw [(splitRuns_spec sep).2.1 x xs hx, ih]
      simp [hx]
    · constructor
      · intro h
        exfalso
        unfold splitRuns at h
        rw [List.splitOnP_cons] at h
        simp only [hx, if_false] at h
        obtain ⟨hd, tl, hsp⟩ : ∃ hd tl, xs.splitOnP sep = hd :: tl := by
          cases hsp : xs.splitOnP sep with
          | nil => exact absurd hsp (List.splitOnP_ne_nil _ _)
          | cons hd tl => exact ⟨hd, tl, rfl⟩
        rw [hsp] at h
        simp [List.filter_cons] at h
      · intro h
        exact absurd (h x (List.mem_cons_self _ _)) hx

/-- `Register` panics exactly when the lower-cased path has no word, and
otherwise appends one definition with those words and the given factory. -/
theorem Register_eq (lower : Char → Char) (p : Parser) (cmd : Str) (fn : Unit → AnyVal) :
    p.Register lower cmd fn =
      if Fields (ToLower lower cmd) = [] then none
      else some ⟨p.commands ++ [⟨Fields (ToLower lower cmd), fn⟩]⟩ := by
  unfold Parser.Register
  by_cases h : Fields (ToLower lower cmd) = []
  · simp [h]
  · have : ¬ (Fields (ToLower lower cmd)).length = 0 := fun hl => h (List.length_eq_zero.1 hl)
    simp [h, this]

theorem RegisterMany_nil (lower : Char → Char) (p : Parser) (fn : Unit → AnyVal) :
    p.RegisterMany lower fn [] = some p := rfl

theorem RegisterMany_cons (lower : Char → Char) (p : Parser) (fn : Unit → AnyVal) (c : Str)
    (cs : List Str) :
    p.RegisterMany lower fn (c :: cs) =
      (p.Register lower c fn).bind (fun q => q.RegisterMany lower fn cs) := by
  simp only [Parser.RegisterMany, List.foldlM_cons]
  rfl

/-- The registry after a `RegisterMany` that returns: one definition per path
string, in order, each with the factory given, after the earlier definitions. -/
theorem RegisterMany_commands (lower : Char → Char) (fn : Unit → AnyVal) (cmds : List Str)
    (p q : Parser) (h : p.RegisterMany lower fn cmds = some q) :
    (∀ c ∈ cmds, Fields (ToLower lower c) ≠ []) ∧
    q.commands = p.commands ++ cmds.map (fun c => ⟨Fields (ToLower lower c), fn⟩) := by
  induction cmds generalizing p with
  | nil =>
    rw [RegisterMany_nil] at h
    cases h
    simp
  | cons c cs ih =>
    rw [RegisterMany_cons, Register_eq] at h
    by_cases hc : Fields (ToLower lower c) = []
    · simp [hc] at h
    · simp only [hc, if_false, Option.some_bind] at h
      obtain ⟨h1, h2⟩ := ih _ h
      refine ⟨?_, ?_⟩
      · intro x hx
        rcases List.mem_cons.1 hx with rfl | hx
        · exact hc
        · exact h1 x hx
      · rw [h2]
        simp

/-- The words `Register` stores for any path string: each is non-empty, is its
own lower-casing when lower-casing twice is lower-casing once, and has no white
space. -/
theorem Fields_ToLower_words (lower : Char → Char) (hid : ∀ c, lower (lower c) = lower c)
    (cmd : Str) :
    ∀ w ∈ Fields (ToLower lower cmd),
      w ≠ [] ∧ ToLower lower w = w ∧ ∀ c ∈ w, isSpace c = false := by
  intro w hw
  obtain ⟨hne, hch⟩ := splitRuns_mem isSpace _ w hw
  refine ⟨hne, ?_, fun c hc => (hch c hc).2⟩
  have hfix : ∀ c ∈ w, lower c = c := by
    intro c hc
    have hmem := (hch c hc).1
    simp only [ToLower, List.mem_map] at hmem
    obtain ⟨a, -, ha⟩ := hmem
    rw [← ha, hid]
  unfold ToLower
  calc w.map lower = w.map id := List.map_congr_left hfix
    _ = w := List.map_id w

/-- The invariant of the registry: no path is empty and every path word is
non-empty, its own lower-casing and free of white space. -/
theorem Reachable_paths (lower : Char → Char) (hid : ∀ c, lower (lower c) = lower c)
    (p : Parser) (hp : Reachable lower p) :
    ∀ d ∈ p.commands, d.Path ≠ [] ∧
      ∀ w ∈ d.Path, w ≠ [] ∧ ToLower lower w = w ∧ ∀ c ∈ w, isSpace c = false := by
  induction hp with
  | new => intro d hd; simp [NewParser] at hd
  | register cmd fn _ hreg ih =>
    rw [Register_eq] at hreg
    by_cases hc : Fields (ToLower lower cmd) = []
    · simp [hc] at hreg
    · simp only [hc, if_false, Option.some.injEq] at hreg
      subst hreg
      intro d hd
      rcases List.mem_append.1 hd with hd | hd
      · exact ih d hd
      · rw [List.mem_singleton.1 hd]
        exact ⟨hc, Fields_ToLower_words lower hid cmd⟩
  | registerMany fn cmds _ hreg ih =>
    obtain ⟨h1, h2⟩ := RegisterMany_commands lower fn cmds _ _ hreg
    intro d hd
    rw [h2] at hd
    rcases List.mem_append.1 hd with hd | hd
    · exact ih d hd
    · obtain ⟨c, hc, rfl⟩ := List.mem_map.1 hd
      exact ⟨h1 c hc, Fields_ToLower_words lower hid c⟩

/-- C13. Registry invariant, for a rune lower-casing that maps white space to
white space and nothing else to it and that is idempotent (as `unicode.ToLower`
is): `Register` panics, adding nothing, exactly when the path string has no
character other than white space; otherwise it appends exactly one definition,
whose path is the white-space-separated words of the lower-cased string, after
the earlier definitions, which stay as they are and in order; so in every
parser reachable from `NewParser` by `Register` and `RegisterMany` every path is
non-empty and every path word is non-empty, lower-case and free of white
space. -/
theorem Register_invariant (lower : Char → Char)
    (hsp : ∀ c, isSpace (lower c) = isSpace c) (hid : ∀ c, lower (lower c) = lower c) :
    (∀ (p : Parser) (cmd : Str) (fn : Unit → AnyVal),
      (p.Register lower cmd fn = none ↔ ∀ c ∈ cmd, isSpace c = true) ∧
      (∀ q, p.Register lower cmd fn = some q →
        q.commands = p.commands ++ [⟨splitRuns isSpace (ToLower lower cmd), fn⟩])) ∧
    (∀ p, Reachable lower p → ∀ d ∈ p.commands, d.Path ≠ [] ∧
      ∀ w ∈ d.Path, w ≠ [] ∧ ToLower lower w = w ∧ ∀ c ∈ w, isSpace c = false) := by
  refine ⟨fun p cmd fn => ⟨?_, ?_⟩, fun p hp => Reachable_paths lower hid p hp⟩
  · rw [Register_eq]
    have hnil : Fields (ToLower lower cmd) = [] ↔ ∀ c ∈ cmd, isSpace c = true := by
      rw [Fields, splitRuns_eq_nil_iff]
      simp only [ToLower, List.mem_map, forall_exists_index, and_imp,
        forall_apply_eq_imp_iff₂, hsp]
    by_cases hc : Fields (ToLower lower cmd) = []
    · simp only [hc, if_true, true_iff]
      exact hnil.1 hc
    · simp only [hc, if_false]
      constructor
      · intro h; cases h
      · intro h; exact absurd (hnil.2 h) hc
  · intro q hq
    rw [Register_eq] at hq
    by_cases hc : Fields (ToLower lower cmd) = []
    · simp [hc] at hq
    · simp only [hc, if_false, Option.some.injEq] at hq
      subst hq
      rfl

/-- C14. `RegisterMany` is sugar: with no path string it returns the parser as
it is, with a first string `c` it is `Register(c, fn)` followed by
`RegisterMany` of the remaining strings on the resulting parser (a panic of
`Register` being a panic of the whole), and when it returns the registry is the
earlier definitions followed by one definition per string, in order, each with
the path `Register` computes and with the same factory `fn`. -/
theorem RegisterMany_sugar (lower : Char → Char) (p : Parser) (fn : Unit → AnyVal)
    (cmds : List Str) :
    p.RegisterMany lower fn [] = some p ∧
    (∀ c cs, p.RegisterMany lower fn (c :: cs) =
      match p.Register lower c fn with
      | none => none
      | some q => q.RegisterMany lower fn cs) ∧
    (∀ q, p.RegisterMany lower fn cmds = some q →
      q.commands = p.commands ++
        cmds.map (fun c => ⟨splitRuns isSpace (ToLower lower c), fn⟩)) := by
  refine ⟨rfl, ?_, fun q hq => (RegisterMany_commands lower fn cmds p q hq).2⟩
  intro c cs
  rw [RegisterMany_cons]
  cases p.Register lower c fn <;> rfl

/-! ## The ASCII lower-casing used in the concrete instances -/

theorem toLower_upper (c : Char) (h : c.toNat ≥ 65 ∧ c.toNat ≤ 90) :
    Char.toLower c = Char.ofNat (c.toNat + 32) := by
  simp [Char.toLower, h]

theorem toLower_other (c : Char) (h : ¬ (c.toNat ≥ 65 ∧ c.toNat ≤ 90)) :
    Char.toLower c = c := by
  simp only [Char.toLower, h, if_false]

/-- Lower-casing twice is lower-casing once. -/
theorem toLower_idem (c : Char) : Char.toLower (Char.toLower c) = Char.toLower c := by
  by_cases h : c.toNat ≥ 65 ∧ c.toNat ≤ 90
  · rw [toLower_upper c h]
    generalize c.toNat = n at h
    obtain ⟨h1, h2⟩ := h
    interval_cases n <;> rfl
  · rw [toLower_other c h, toLower_other c h]

/-- Lower-casing neither makes nor unmakes white space. -/
theorem isSpace_toLower (c : Char) : isSpace (Char.toLower c) = isSpace c := by
  by_cases h : c.toNat ≥ 65 ∧ c.toNat ≤ 90
  · rw [toLower_upper c h]
    have hc : isSpace c = false := by
      unfold isSpace
      generalize c.toNat = n at h
      obtain ⟨h1, h2⟩ := h
      interval_cases n <;> rfl
    rw [hc]
    generalize c.toNat = n at h
    obtain ⟨h1, h2⟩ := h
    interval_cases n <;> rfl
  · rw [toLower_other c h]

/-- The registry of the longest-prefix example is reachable. -/
theorem s3Parser_reachable : Reachable Char.toLower s3Parser :=
  Reachable.register "s3 add".toList (fun _ => S3Add)
    (Reachable.register "s3".toList (fun _ => S3Help) Reachable.new rfl) rfl

/-- Instance of C13: a path string of a space and a tab makes `Register`
panic, and the two paths of the registry of the longest-prefix example are
`s3` and `s3 add`, with the invariant. -/
theorem Register_invariant_witness :
    NewParser.Register Char.toLower [space, tab] (fun _ => S3Help) = none ∧
    s3Parser.commands.map (fun d => d.Path) =
      [["s3".toList], ["s3".toList, "add".toList]] ∧
    (∀ d ∈ s3Parser.commands, d.Path ≠ [] ∧
      ∀ w ∈ d.Path, w ≠ [] ∧ ToLower Char.toLower w = w ∧ ∀ c ∈ w, isSpace c = false) :=
  ⟨((Register_invariant Char.toLower isSpace_toLower toLower_idem).1 NewParser [space, tab]
      (fun _ => S3Help)).1.2 (by decide),
    by decide,
    (Register_invariant Char.toLower isSpace_toLower toLower_idem).2 s3Parser
      s3Parser_reachable⟩

/-- Instance of C14: the aliases `s3`, `s3 help` and `s3 h`, registered by one
`RegisterMany`, all parse to an `S3Help` value; and `RegisterMany` of the three
strings on a new parser gives three definitions with these paths. -/
theorem RegisterMany_sugar_witness :
    outcome (cliParser.Parse Char.toLower "s3".toList) = .ok (["s3".toList], S3Help) ∧
    outcome (cliParser.Parse Char.toLower "s3 help".toList) =
      .ok (["s3".toList, "help".toList], S3Help) ∧
    outcome (cliParser.Parse Char.toLower "s3 h".toList) =
      .ok (["s3".toList, "h".toList], S3Help) ∧
    NewParser.RegisterMany Char.toLower (fun _ => S3Help) [] = some NewParser ∧
    (∀ q, NewParser.RegisterMany Char.toLower (fun _ => S3Help)
        ["s3".toList, "s3 help".toList, "s3 h".toList] = some q →
      q.commands.map (fun d => d.Path) =
        [["s3".toList], ["s3".toList, "help".toList], ["s3".toList, "h".toList]]) :=
  ⟨rfl, rfl, rfl,
    (RegisterMany_sugar Char.toLower NewParser (fun _ => S3Help) []).1,
    fun q hq => by
      rw [(RegisterMany_sugar Char.toLower NewParser (fun _ => S3Help)
        ["s3".toList, "s3 help".toList, "s3 h".toList]).2.2 q hq]
      decide⟩

/-! ## Matcher: uniqueness, order of registration, letter case -/

/-- The test of the loop of `Parse` (length guard and word comparison) holds
exactly when the path is a prefix of the lower-cased tokens. -/
theorem candidate_iff (lower : Char → Char) (tokens path : List Str) :
    (¬ tokens.length < path.length ∧ pathMatches lower tokens path = true) ↔
      path <+: tokens.map (ToLower lower) := by
  rw [pathMatches_iff]
  constructor
  · exact fun h => h.2
  · intro h
    refine ⟨?_, h⟩
    have := h.length_le
    simp only [List.length_map] at this
    omega

/-- When the loop of `Parse` ends with `best == nil`, `bestLen` is zero. -/
theorem findBest_none_len (lower : Char → Char) (cmds : List Command) (tokens : List Str)
    (h : (findBest lower cmds tokens).1 = none) : (findBest lower cmds tokens).2 = 0 := by
  obtain ⟨-, -, h3⟩ := foldl_matchStep lower tokens cmds (none, 0)
  rcases h3 with h3 | ⟨c, -, -, -, h3⟩
  · rw [findBest, h3]
  · rw [findBest, h3] at h
    cases h

/-- Two paths of the same length that are both prefixes of the same list are
the same path. -/
theorem prefix_eq_of_length {α : Type} {a b l : List α} (ha : a <+: l) (hb : b <+: l)
    (hlen : a.length = b.length) : a = b :=
  (List.prefix_of_prefix_length_le ha hb (Nat.le_of_eq hlen)).eq_of_length hlen

/-- C15. Match uniqueness: two definitions that both pass the test of the loop
of `Parse` on the same tokens and have paths of the same length have the same
path, word for word; and the path of the definition the loop selects (or the
absence of one) and the number of tokens it consumes are the same for any two
registries that hold the same set of paths. -/
theorem match_unique (lower : Char → Char) (tokens : List Str) :
    (∀ d1 d2 : Command,
      (¬ tokens.length < d1.Path.length ∧ pathMatches lower tokens d1.Path = true) →
      (¬ tokens.length < d2.Path.length ∧ pathMatches lower tokens d2.Path = true) →
      d1.Path.length = d2.Path.length → d1.Path = d2.Path) ∧
    (∀ c1 c2 : List Command,
      (∀ path, (∃ d ∈ c1, d.Path = path) ↔ (∃ d ∈ c2, d.Path = path)) →
      (findBest lower c1 tokens).1.map (fun d => d.Path) =
          (findBest lower c2 tokens).1.map (fun d => d.Path) ∧
        (findBest lower c1 tokens).2 = (findBest lower c2 tokens).2) := by
  refine ⟨fun d1 d2 h1 h2 hlen =>
    prefix_eq_of_length ((candidate_iff lower _ _).1 h1) ((candidate_iff lower _ _).1 h2) hlen,
    ?_⟩
  intro c1 c2 hset
  cases h1 : (findBest lower c1 tokens).1 with
  | none =>
    cases h2 : (findBest lower c2 tokens).1 with
    | none =>
      exact ⟨rfl, by rw [findBest_none_len lower c1 tokens h1,
        findBest_none_len lower c2 tokens h2]⟩
    | some b2 =>
      exfalso
      obtain ⟨hm, hp, hne, -, -⟩ := findBest_some lower c2 tokens b2 h2
      obtain ⟨d, hd, hpath⟩ := (hset b2.Path).2 ⟨b2, hm, rfl⟩
      exact hne (hpath ▸ findBest_none lower c1 tokens h1 d hd (hpath ▸ hp))
  | some b1 =>
    obtain ⟨hm1, hp1, hne1, hl1, hmax1⟩ := findBest_some lower c1 tokens b1 h1
    cases h2 : (findBest lower c2 tokens).1 with
    | none =>
      exfalso
      obtain ⟨d, hd, hpath⟩ := (hset b1.Path).1 ⟨b1, hm1, rfl⟩
      exact hne1 (hpath ▸ findBest_none lower c2 tokens h2 d hd (hpath ▸ hp1))
    | some b2 =>
      obtain ⟨hm2, hp2, hne2, hl2, hmax2⟩ := findBest_some lower c2 tokens b2 h2
      obtain ⟨d2, hd2, hpath2⟩ := (hset b1.Path).1 ⟨b1, hm1, rfl⟩
      obtain ⟨d1, hd1, hpath1⟩ := (hset b2.Path).2 ⟨b2, hm2, rfl⟩
      have hle1 : b1.Path.length ≤ b2.Path.length := by
        have := hmax2 d2 hd2 (hpath2 ▸ hp1)
        rwa [hpath2] at this
      have hle2 : b2.Path.length ≤ b1.Path.length := by
        have := hmax1 d1 hd1 (hpath1 ▸ hp2)
        rwa [hpath1] at this
      have hlen : b1.Path.length = b2.Path.length := Nat.le_antisymm hle1 hle2
      refine ⟨?_, by rw [hl1, hl2, hlen]⟩
      simp only [Option.map_some']
      exact congrArg some (prefix_eq_of_length hp1 hp2 hlen)

/-- Instance of C15: on the tokens of `s3 add name=x` the loop selects the path
`s3 add` in the registry of `registerCommands`, and any two definitions that
pass its test with paths of equal length have the same path. -/
theorem match_unique_witness :
    (findBest Char.toLower cliParser.commands (tokenize "s3 add name=x".toList)).1.map
        (fun d => d.Path) = some ["s3".toList, "add".toList] ∧
    (∀ d1 d2 : Command,
      (¬ (tokenize "s3 add name=x".toList).length < d1.Path.length ∧
        pathMatches Char.toLower (tokenize "s3 add name=x".toList) d1.Path = true) →
      (¬ (tokenize "s3 add name=x".toList).length < d2.Path.length ∧
        pathMatches Char.toLower (tokenize "s3 add name=x".toList) d2.Path = true) →
      d1.Path.length = d2.Path.length → d1.Path = d2.Path) :=
  ⟨by decide, (match_unique Char.toLower (tokenize "s3 add name=x".toList)).1⟩

/-- C19. Duplicate paths resolve to the first registration: a definition `d`
whose non-empty path matches, registered after definitions whose matching paths
are all shorter and before definitions whose matching paths are none longer, is
the one the loop selects, and `Parse` builds the value with the factory of `d`;
and registering a definition whose path is already registered changes the
result of no `Parse`. -/
theorem first_registration_wins (lower : Char → Char) (tokens : List Str)
    (pre post : List Command) (d : Command)
    (hd : d.Path <+: tokens.map (ToLower lower)) (hne : d.Path ≠ [])
    (hpre : ∀ c ∈ pre, c.Path <+: tokens.map (ToLower lower) →
      c.Path.length < d.Path.length)
    (hpost : ∀ c ∈ post, c.Path <+: tokens.map (ToLower lower) →
      c.Path.length ≤ d.Path.length) :
    findBest lower (pre ++ d :: post) tokens = (some d, d.Path.length) ∧
    (∀ line, tokenize line = tokens → tokens ≠ [] →
      Parser.Parse lower ⟨pre ++ d :: post⟩ line =
        match bindArgs lower (d.New ()) (parseArgs lower (tokens.drop d.Path.length)) with
        | (_, some err) => .error err
        | (v, none) => .ok ⟨d, v⟩) ∧
    (∀ (p : Parser) (dup : Command) (line : Str), (∃ c ∈ p.commands, c.Path = dup.Path) →
      findBest lower (p.commands ++ [dup]) (tokenize line) =
          findBest lower p.commands (tokenize line) ∧
        Parser.Parse lower ⟨p.commands ++ [dup]⟩ line = p.Parse lower line) := by
  have hfind : findBest lower (pre ++ d :: post) tokens = (some d, d.Path.length) := by
    unfold findBest
    rw [List.foldl_append, List.foldl_cons]
    obtain ⟨-, -, h3⟩ := foldl_matchStep lower tokens pre (none, 0)
    have hlt : (pre.foldl (matchStep lower tokens) (none, 0)).2 < d.Path.length := by
      rcases h3 with h3 | ⟨c, hc, hcp, -, h3⟩
      · rw [h3]
        exact List.length_pos.2 hne
      · rw [h3]
        exact hpre c hc hcp
    have hstep : matchStep lower tokens (pre.foldl (matchStep lower tokens) (none, 0)) d =
        (some d, d.Path.length) := by
      rcases matchStep_eq lower tokens (pre.foldl (matchStep lower tokens) (none, 0)) d with
        ⟨-, -, he⟩ | ⟨hn, -⟩
      · exact he
      · exact absurd ⟨hd, hlt⟩ hn
    rw [hstep]
    obtain ⟨-, -, h4⟩ := foldl_matchStep lower tokens post (some d, d.Path.length)
    rcases h4 with h4 | ⟨c, hc, hcp, hgt, -⟩
    · exact h4
    · exact absurd (hpost c hc hcp) (by simp only at hgt; omega)
  refine ⟨hfind, ?_, ?_⟩
  · intro line hline hnil
    rw [Parse_cons lower _ line (by rw [hline]; exact hnil)]
    simp only [hline, hfind]
  · intro p dup line ⟨c, hc, hpath⟩
    have hsame : findBest lower (p.commands ++ [dup]) (tokenize line) =
        findBest lower p.commands (tokenize line) := by
      unfold findBest
      rw [List.foldl_append]
      simp only [List.foldl_cons, List.foldl_nil]
      rcases matchStep_eq lower (tokenize line)
          (p.commands.foldl (matchStep lower (tokenize line)) (none, 0)) dup with
        ⟨hp, hlt, -⟩ | ⟨-, he⟩
      · exfalso
        obtain ⟨-, h2, -⟩ := foldl_matchStep lower (tokenize line) p.commands (none, 0)
        have := h2 c hc (hpath ▸ hp)
        rw [hpath] at this
        omega
      · exact he
    refine ⟨hsame, ?_⟩
    simp only [Parser.Parse, hsame]

/-- Instance of C19: with `s3` registered first with the `S3Help` factory and
then again with the `S3List` factory, `s3` parses to an `S3Help` value. -/
theorem first_registration_wins_witness :
    dupParser.commands.map (fun d => d.Path) = [["s3".toList], ["s3".toList]] ∧
    outcome (dupParser.Parse Char.toLower "s3".toList) = .ok (["s3".toList], S3Help) ∧
    (findBest Char.toLower
        ([] ++ (⟨["s3".toList], fun _ => S3Help⟩ : Command) ::
          [(⟨["s3".toList], fun _ => S3List⟩ : Command)])
        ["s3".toList]).1.map (fun d => d.New ()) = some S3Help :=
  ⟨by decide, rfl, by
    rw [(first_registration_wins Char.toLower ["s3".toList] []
      [⟨["s3".toList], fun _ => S3List⟩] ⟨["s3".toList], fun _ => S3Help⟩
      (by decide) (by decide) (by simp) (by decide)).1]
    rfl⟩

/-- For a path of lower-case words the test of the loop of `Parse` is the
word-by-word comparison of the path with the first tokens, both lower-cased. -/
theorem candidate_iff_forall₂ (lower : Char → Char) (path tokens : List Str)
    (hlow : ∀ w ∈ path, ToLower lower w = w) :
    (¬ tokens.length < path.length ∧ pathMatches lower tokens path = true) ↔
      List.Forall₂ (fun w t => ToLower lower w = ToLower lower t) path
        (tokens.take path.length) := by
  induction path generalizing tokens with
  | nil => simp [pathMatches]
  | cons w ws ih =>
    cases tokens with
    | nil => simp [pathMatches]
    | cons t ts =>
      have hw : ToLower lower w = w := hlow w (List.mem_cons_self _ _)
      have ih2 := ih ts (fun x hx => hlow x (List.mem_cons_of_mem _ hx))
      simp only [List.length_cons, List.take_succ_cons, List.forall₂_cons, pathMatches]
      rw [← ih2, hw]
      by_cases h : ToLower lower t = w
      · have hb : (ToLower lower t != w) = false := by simp [h]
        rw [hb]
        simp only [Bool.false_eq_true, if_false]
        constructor
        · rintro ⟨h1, h2⟩
          exact ⟨h.symm, by omega, h2⟩
        · rintro ⟨-, h1, h2⟩
          exact ⟨by omega, h2⟩
      · have hb : (ToLower lower t != w) = true := by simp [h]
        rw [hb]
        simp only [if_true]
        constructor
        · rintro ⟨-, h2⟩
          cases h2
        · rintro ⟨h1, -⟩
          exact absurd h1.symm h

/-- The loop of `Parse` sees the tokens only through their lower-casing. -/
theorem findBest_congr (lower : Char → Char) (cmds : List Command) (t1 t2 : List Str)
    (h : t1.map (ToLower lower) = t2.map (ToLower lower)) :
    findBest lower cmds t1 = findBest lower cmds t2 := by
  have hlen : t1.length = t2.length := by
    have := congrArg List.length h
    simpa using this
  have hstep : matchStep lower t1 = matchStep lower t2 := by
    funext st d
    have hm : pathMatches lower t1 d.Path = pathMatches lower t2 d.Path := by
      rw [Bool.eq_iff_iff, pathMatches_iff, pathMatches_iff, h]
    simp only [matchStep, hlen, hm]
  simp only [findBest, hstep]

/-- C16. Case-insensitive command matching, for an idempotent rune lower-casing
and a registry built through `Register` and `RegisterMany`: a definition passes
the test of the loop of `Parse` exactly when every path word and the token at
the same position are equal once both are lower-cased; and two lines whose
tokens differ only in letter case, and only within the tokens the selected path
consumes, parse to the same definition and the same bound value. -/
theorem case_insensitive_match (lower : Char → Char)
    (hid : ∀ c, lower (lower c) = lower c) (p : Parser) (hp : Reachable lower p) :
    (∀ tokens : List Str, ∀ d ∈ p.commands,
      (¬ tokens.length < d.Path.length ∧ pathMatches lower tokens d.Path = true) ↔
        List.Forall₂ (fun w t => ToLower lower w = ToLower lower t) d.Path
          (tokens.take d.Path.length)) ∧
    (∀ (line1 line2 : Str) (pre1 pre2 rest : List Str),
      tokenize line1 = pre1 ++ rest → tokenize line2 = pre2 ++ rest →
      pre1.map (ToLower lower) = pre2.map (ToLower lower) →
      pre1.length ≤ (findBest lower p.commands (tokenize line1)).2 →
      ∀ pc, p.Parse lower line1 = .ok pc ↔ p.Parse lower line2 = .ok pc) := by
  refine ⟨fun tokens d hd => candidate_iff_forall₂ lower d.Path tokens
    (fun w hw => ((Reachable_paths lower hid p hp d hd).2 w hw).2.1), ?_⟩
  intro line1 line2 pre1 pre2 rest h1 h2 hpre hlen pc
  have hlen12 : pre1.length = pre2.length := by
    have := congrArg List.length hpre
    simpa using this
  have hfind : findBest lower p.commands (tokenize line1) =
      findBest lower p.commands (tokenize line2) :=
    findBest_congr lower _ _ _ (by rw [h1, h2, List.map_append, List.map_append, hpre])
  have hdrop : (tokenize line1).drop (findBest lower p.commands (tokenize line1)).2 =
      (tokenize line2).drop (findBest lower p.commands (tokenize line2)).2 := by
    rw [← hfind]
    generalize (findBest lower p.commands (tokenize line1)).2 = k at hlen ⊢
    have hlen2 : pre2.length ≤ k := by omega
    rw [h1, h2, List.drop_append_eq_append_drop, List.drop_append_eq_append_drop,
      List.drop_eq_nil_of_le hlen, List.drop_eq_nil_of_le hlen2, hlen12]
  by_cases hnil : tokenize line1 = []
  · have hnil2 : tokenize line2 = [] := by
      rw [h1] at hnil
      have hp1 : pre1 = [] := (List.append_eq_nil.1 hnil).1
      have hr : rest = [] := (List.append_eq_nil.1 hnil).2
      have hp2 : pre2 = [] := List.length_eq_zero.1 (by rw [← hlen12, hp1]; rfl)
      rw [h2, hp2, hr]
      rfl
    rw [Parse_nil lower p line1 hnil, Parse_nil lower p line2 hnil2]
  · have hnil2 : tokenize line2 ≠ [] := by
      intro h
      apply hnil
      rw [h2] at h
      have hp2 : pre2 = [] := (List.append_eq_nil.1 h).1
      have hr : rest = [] := (List.append_eq_nil.1 h).2
      have hp1 : pre1 = [] := List.length_eq_zero.1 (by rw [hlen12, hp2]; rfl)
      rw [h1, hp1, hr]
      rfl
    rw [Parse_cons lower p line1 hnil, Parse_cons lower p line2 hnil2, hdrop, ← hfind]
    cases (findBest lower p.commands (tokenize line1)).1 with
    | none =>
      constructor <;> intro h <;> cases h
    | some best => exact Iff.rfl

/-- Instance of C16: `S3 ADD name=x` and `s3 add name=x` select the path
`s3 add` and bind `Name` to `x`. -/
theorem case_insensitive_match_witness :
    outcome (s3Parser.Parse Char.toLower "S3 ADD name=x".toList) =
      .ok (["s3".toList, "add".toList], S3AddNamed "x") ∧
    outcome (s3Parser.Parse Char.toLower "s3 add name=x".toList) =
      .ok (["s3".toList, "add".toList], S3AddNamed "x") ∧
    (∀ pc, s3Parser.Parse Char.toLower "S3 ADD name=x".toList = .ok pc ↔
      s3Parser.Parse Char.toLower "s3 add name=x".toList = .ok pc) :=
  ⟨rfl, rfl,
    (case_insensitive_match Char.toLower toLower_idem s3Parser s3Parser_reachable).2
      "S3 ADD name=x".toList "s3 add name=x".toList ["S3".toList, "ADD".toList]
      ["s3".toList, "add".toList] ["name=x".toList] (by decide) (by decide) (by decide)
      (by decide)⟩

/-! ## Binder: integer coercion -/

/-- Truncation to 64 bits keeps every `int64` value. -/
theorem wrapInt_64 (v : Int) (h1 : - 2 ^ 63 ≤ v) (h2 : v < 2 ^ 63) : wrapInt 64 v = v := by
  unfold wrapInt
  have h : (v + 2 ^ (64 - 1)) % 2 ^ 64 = v + 2 ^ (64 - 1) :=
    Int.emod_eq_of_lt (by norm_num; omega) (by norm_num; omega)
  rw [h]
  omega

/-- Truncation to 64 bits keeps every `uint64` value. -/
theorem wrapUint_64 (n : Nat) (h : n < 2 ^ 64) : wrapUint 64 n = n :=
  Nat.mod_eq_of_lt h

/-- The loop on a field that it reaches, that can be set, and whose key is
present: the outcome is that of the switch on this field. -/
theorem bindFields_reach (lower : Char → Char) (kv : KV) (pre post : List Field) (f : Field)
    (raw : Str) (hpre : (bindFields lower kv pre).2 = none) (hset : f.canSet = true)
    (hkv : kv (bindKey lower f) = some raw) :
    (∀ e, bindField (bindKey lower f) f raw = .error e →
      bindFields lower kv (pre ++ f :: post) =
        ((bindFields lower kv pre).1 ++ f :: post, some e)) ∧
    (∀ g, bindField (bindKey lower f) f raw = .ok g →
      (bindFields lower kv (pre ++ f :: post)).1[pre.length]? = some g) := by
  have hcons := bindFields_cons lower kv f post
  rw [hkv] at hcons
  simp only [hset, Bool.true_eq_false, if_false] at hcons
  refine ⟨fun e he => ?_, fun g hg => ?_⟩
  · rw [he] at hcons
    rw [bindFields_append lower kv pre (f :: post) hpre, hcons]
  · rw [hg] at hcons
    rw [bindFields_append lower kv pre (f :: post) hpre, hcons]
    simp only
    rw [List.getElem?_append_right (by rw [bindFields_length])]
    simp [bindFields_length]

/-- C17, as the code has it by design. Integer coercion is exact for a field
of a 64-bit integer kind (`int64`, `uint64`, and `int`, `uint`, taken as 64 bits
wide) that can be set and that binding reaches, when its key is present with
raw value `r`: a signed field is set to exactly the integer that `r` denotes as
a base-10 numeral when that integer is in the `int64` range, and binding fails
with the invalid-int error otherwise; an unsigned field is set to exactly the
number the digits of `r` denote when `r` is a non-empty run of digits below
2^64, and binding fails with the invalid-uint error otherwise, in particular
for every `r` that starts with a minus sign. -/
theorem int_coercion_exact (lower : Char → Char) (kv : KV) (pre post : List Field)
    (f : Field) (raw : Str) (hpre : (bindFields lower kv pre).2 = none)
    (hset : f.canSet = true) (hkv : kv (bindKey lower f) = some raw)
    (h64 : f.kind.bits = 64) :
    (f.kind.isInt = true →
      (∀ v : Int, denotesInt raw v → - 2 ^ 63 ≤ v → v < 2 ^ 63 →
        (bindFields lower kv (pre ++ f :: post)).1[pre.length]? =
          some { f with val := .int v }) ∧
      ((¬ ∃ v : Int, denotesInt raw v ∧ - 2 ^ 63 ≤ v ∧ v < 2 ^ 63) →
        bindFields lower kv (pre ++ f :: post) =
          ((bindFields lower kv pre).1 ++ f :: post,
            some (.invalidInt (bindKey lower f) raw)))) ∧
    (f.kind.isUint = true →
      (raw ≠ [] → (∀ c ∈ raw, isDigit c = true) → decimal raw < 2 ^ 64 →
        (bindFields lower kv (pre ++ f :: post)).1[pre.length]? =
          some { f with val := .uint (decimal raw) }) ∧
      (¬ (raw ≠ [] ∧ (∀ c ∈ raw, isDigit c = true) ∧ decimal raw < 2 ^ 64) →
        bindFields lower kv (pre ++ f :: post) =
          ((bindFields lower kv pre).1 ++ f :: post,
            some (.invalidUint (bindKey lower f) raw))) ∧
      (∀ rest, raw = Char.ofNat 45 :: rest →
        bindFields lower kv (pre ++ f :: post) =
          ((bindFields lower kv pre).1 ++ f :: post,
            some (.invalidUint (bindKey lower f) raw)))) := by
  obtain ⟨herr, hok⟩ := bindFields_reach lower kv pre post f raw hpre hset hkv
  constructor
  · intro hint
    have hf := @bindField_int (bindKey lower f) f raw hint
    constructor
    · intro v hv h1 h2
      have hp : ParseInt raw = some v := (ParseInt_iff raw v).2 ⟨hv, h1, h2⟩
      rw [hp] at hf
      simp only [h64, wrapInt_64 v h1 h2] at hf
      exact hok _ hf
    · intro hno
      have hp : ParseInt raw = none := by
        cases hq : ParseInt raw with
        | none => rfl
        | some v => exact absurd ⟨v, (ParseInt_iff raw v).1 hq⟩ hno
      rw [hp] at hf
      exact herr _ hf
  · intro huint
    have hf := @bindField_uint (bindKey lower f) f raw huint
    have hbad : ¬ (raw ≠ [] ∧ (∀ c ∈ raw, isDigit c = true) ∧ decimal raw < 2 ^ 64) →
        bindFields lower kv (pre ++ f :: post) =
          ((bindFields lower kv pre).1 ++ f :: post,
            some (.invalidUint (bindKey lower f) raw)) := by
      intro hno
      have hp : ParseUint raw = none := by
        cases hq : ParseUint raw with
        | none => rfl
        | some n =>
          obtain ⟨a, b, c, d⟩ := (ParseUint_iff raw n).1 hq
          exact absurd ⟨a, b, c ▸ d⟩ hno
      rw [hp] at hf
      exact herr _ hf
    refine ⟨?_, hbad, ?_⟩
    · intro hne hd hlt
      have hp : ParseUint raw = some (decimal raw) :=
        (ParseUint_iff raw _).2 ⟨hne, hd, rfl, hlt⟩
      rw [hp] at hf
      simp only [h64, wrapUint_64 _ hlt] at hf
      exact hok _ hf
    · intro rest hraw
      apply hbad
      rintro ⟨-, hd, -⟩
      have := hd (Char.ofNat 45) (hraw ▸ List.mem_cons_self _ _)
      exact absurd this (by decide)

/-- C17 as stated fails: an `int8` field given `300` is set to 44 and a `uint8`
field given `256` is set to 0, both without error; and an unexported `int`
field given `5` is neither set nor the cause of an error. -/
theorem int_coercion_counterexample :
    ParseInt "300".toList = some 300 ∧
    bindArgs Char.toLower narrowInt (parseArgs Char.toLower ["n=300".toList]) =
      (.ptrStruct ⟨"narrowInt".toList, [⟨"N".toList, [], .int8, true, .int 44⟩]⟩, none) ∧
    ParseUint "256".toList = some 256 ∧
    bindArgs Char.toLower narrowUint (parseArgs Char.toLower ["n=256".toList]) =
      (.ptrStruct ⟨"narrowUint".toList, [⟨"N".toList, [], .uint8, true, .uint 0⟩]⟩, none) ∧
    bindArgs Char.toLower hiddenInt (parseArgs Char.toLower ["n=5".toList]) =
      (hiddenInt, none) := by
  decide

/-- Instance of the amended C17: `limit=-12` sets the `int` field `Limit` of a
`Query` to -12, and `limit=9223372036854775808` (2^63) is refused. -/
theorem int_coercion_exact_witness :
    (bindFields Char.toLower (parseArgs Char.toLower ["limit=-12".toList])
        ([textField "Table" "table", textField "Prefix" "prefix", textField "From" "from",
          textField "To" "to"] ++ intField "Limit" "limit" :: [])).1[4]? =
      some { intField "Limit" "limit" with val := .int (-12) } ∧
    cliParser.Parse Char.toLower "query limit=9223372036854775808".toList =
      .error (.invalidInt "limit".toList "9223372036854775808".toList) :=
  ⟨((int_coercion_exact Char.toLower (parseArgs Char.toLower ["limit=-12".toList])
      [textField "Table" "table", textField "Prefix" "prefix", textField "From" "from",
        textField "To" "to"] [] (intField "Limit" "limit") "-12".toList
      (by decide) (by decide) (by decide) (by decide)).1 (by decide)).1 (-12)
      ⟨"12".toList, by decide, by decide, Or.inr (Or.inr ⟨by decide, by decide⟩)⟩
      (by norm_num) (by norm_num),
    rfl⟩

/-! ## Binder: order of the fields and the first failure -/

/-- When the loop returns no error, a field that can be set and whose key is
present holds the value the switch gave it, and a field that cannot be set is
as before. -/
theorem bindFields_bound (lower : Char → Char) (kv : KV) (fs : List Field)
    (h : (bindFields lower kv fs).2 = none) (i : Nat) (g : Field) (hg : fs[i]? = some g) :
    (∀ r g2, kv (bindKey lower g) = some r → g.canSet = true →
      bindField (bindKey lower g) g r = .ok g2 → (bindFields lower kv fs).1[i]? = some g2) ∧
    (g.canSet = false → (bindFields lower kv fs).1[i]? = some g) := by
  induction fs generalizing i with
  | nil => simp at hg
  | cons a as ih =>
    rw [bindFields_cons] at h ⊢
    cases hkv : kv (bindKey lower a) with
    | none =>
      simp only [hkv] at h ⊢
      cases i with
      | zero =>
        simp only [List.getElem?_cons_zero, Option.some.injEq] at hg ⊢
        subst hg
        exact ⟨fun r g2 hr => (by rw [hkv] at hr; cases hr), fun _ => rfl⟩
      | succ j =>
        simp only [List.getElem?_cons_succ] at hg ⊢
        exact ih h j hg
    | some raw =>
      simp only [hkv] at h ⊢
      cases hset : a.canSet with
      | false =>
        simp only [hset, if_true] at h ⊢
        cases i with
        | zero =>
          simp only [List.getElem?_cons_zero, Option.some.injEq] at hg ⊢
          subst hg
          exact ⟨fun r g2 _ hs => (by rw [hset] at hs; cases hs), fun _ => rfl⟩
        | succ j =>
          simp only [List.getElem?_cons_succ] at hg ⊢
          exact ih h j hg
      | true =>
        simp only [hset, Bool.true_eq_false, if_false] at h ⊢
        cases hb : bindField (bindKey lower a) a raw with
        | error e => simp [hb] at h
        | ok a2 =>
          simp only [hb] at h ⊢
          cases i with
          | zero =>
            simp only [List.getElem?_cons_zero, Option.some.injEq] at hg ⊢
            subst hg
            refine ⟨fun r g2 hr _ hok => ?_, fun hs => by rw [hset] at hs; cases hs⟩
            rw [hkv] at hr
            cases hr
            rw [hb] at hok
            cases hok
            rfl
          | succ j =>
            simp only [List.getElem?_cons_succ] at hg ⊢
            exact ih h j hg

/-- C18, as the code has it. First failure aborts without rollback: when `f`
is the first field, in declaration order, whose present raw value fails
coercion (every field before it that can be set and whose key is present
coerces), `bindArgs` returns the error of `f` and no other; of the fields
before `f`, one that can be set and whose key is present holds its newly bound
value, and one whose key is absent or that cannot be set is as before; `f` and
the fields after it are unchanged; and `Parse` returns that error and no
value. -/
theorem bindArgs_first_failure (lower : Char → Char) (kv : KV) (n : Str)
    (pre post : List Field) (f : Field) (raw : Str) (e : Error)
    (hpre : ∀ g ∈ pre, ∀ r, kv (bindKey lower g) = some r → g.canSet = true →
      ∃ g2, bindField (bindKey lower g) g r = .ok g2)
    (hkv : kv (bindKey lower f) = some raw) (hset : f.canSet = true)
    (hb : bindField (bindKey lower f) f raw = .error e) :
    (∃ gs, bindArgs lower (.ptrStruct ⟨n, pre ++ f :: post⟩) kv =
        (.ptrStruct ⟨n, gs ++ f :: post⟩, some e) ∧
      gs.length = pre.length ∧
      ∀ (i : Nat) (g : Field), pre[i]? = some g →
        (∀ r g2, kv (bindKey lower g) = some r → g.canSet = true →
          bindField (bindKey lower g) g r = .ok g2 → gs[i]? = some g2) ∧
        (kv (bindKey lower g) = none ∨ g.canSet = false → gs[i]? = some g)) ∧
    (∀ (p : Parser) (line : Str) (best : Command), tokenize line ≠ [] →
      (findBest lower p.commands (tokenize line)).1 = some best →
      best.New () = .ptrStruct ⟨n, pre ++ f :: post⟩ →
      parseArgs lower ((tokenize line).drop best.Path.length) = kv →
      p.Parse lower line = .error e) := by
  have hnone : (bindFields lower kv pre).2 = none := by
    cases he : (bindFields lower kv pre).2 with
    | none => rfl
    | some e1 =>
      obtain ⟨g, hg, r, hr, hs, hbad⟩ := bindFields_error_field lower kv pre e1 he
      obtain ⟨g2, hok⟩ := hpre g hg r hr hs
      rw [hok] at hbad
      cases hbad
  have hall : bindFields lower kv (pre ++ f :: post) =
      ((bindFields lower kv pre).1 ++ f :: post, some e) :=
    (bindFields_reach lower kv pre post f raw hnone hset hkv).1 e hb
  have hbind : bindArgs lower (.ptrStruct ⟨n, pre ++ f :: post⟩) kv =
      (.ptrStruct ⟨n, (bindFields lower kv pre).1 ++ f :: post⟩, some e) := by
    simp only [bindArgs, hall]
  refine ⟨⟨(bindFields lower kv pre).1, hbind, bindFields_length lower kv pre, ?_⟩, ?_⟩
  · intro i g hg
    obtain ⟨h1, h2⟩ := bindFields_bound lower kv pre hnone i g hg
    refine ⟨h1, ?_⟩
    rintro (hk | hs)
    · exact bindFields_frame lower kv pre i g hg hk
    · exact h2 hs
  · intro p line best hne hbest hshape hargs
    obtain ⟨-, -, -, hlen, -⟩ := findBest_some lower _ _ best hbest
    rw [Parse_cons lower p line hne]
    simp only [hbest, hlen, hshape, hargs, hbind]

/-- Instance of C18: `query table=t limit=abc` fails on `Limit` after `Table`
was set to `t`; `bindArgs` leaves `Table` set and `Limit` at zero, and `Parse`
returns the invalid-int error. -/
theorem bindArgs_first_failure_witness :
    bindArgs Char.toLower (.ptrStruct ⟨"Query".toList,
        [textField "Table" "table", textField "Prefix" "prefix", textField "From" "from",
          textField "To" "to"] ++ intField "Limit" "limit" :: []⟩)
        (parseArgs Char.toLower ["table=t".toList, "limit=abc".toList]) =
      (QueryWith "t" 0, some (.invalidInt "limit".toList "abc".toList)) ∧
    cliParser.Parse Char.toLower "query table=t limit=abc".toList =
      .error (.invalidInt "limit".toList "abc".toList) :=
  ⟨by decide,
   (bindArgs_first_failure Char.toLower
      (parseArgs Char.toLower ["table=t".toList, "limit=abc".toList]) "Query".toList
      [textField "Table" "table", textField "Prefix" "prefix", textField "From" "from",
        textField "To" "to"] [] (intField "Limit" "limit") "abc".toList
      (.invalidInt "limit".toList "abc".toList)
      (fun g hg r _ _ => by
        simp only [List.mem_cons, List.mem_singleton, List.not_mem_nil, or_false] at hg
        rcases hg with rfl | rfl | rfl | rfl <;> exact ⟨_, rfl⟩)
      (by decide) (by decide) rfl).2 cliParser "query table=t limit=abc".toList
      ⟨["query".toList], fun _ => Query⟩ (by decide) rfl rfl rfl⟩

/-! ## Tokenizer: tokens are never empty -/

/-- One iteration of the loop keeps every token non-empty. -/
theorem tokStep_tokens_ne (s : TokState) (r : Char) (h : ∀ t ∈ s.tokens, t ≠ []) :
    ∀ t ∈ (tokStep s r).tokens, t ≠ [] := by
  unfold tokStep
  split_ifs with h1 h2 h3 h4 h5 h6
  all_goals first
    | exact h
    | (intro t ht
       simp only [List.mem_append, List.mem_singleton] at ht
       rcases ht with ht | ht
       · exact h t ht
       · rw [ht]
         exact List.ne_nil_of_length_pos h3)

/-- The loop keeps every token non-empty. -/
theorem foldl_tokens_ne (l : Str) (s : TokState) (h : ∀ t ∈ s.tokens, t ≠ []) :
    ∀ t ∈ (l.foldl tokStep s).tokens, t ≠ [] := by
  induction l generalizing s with
  | nil => exact h
  | cons r rs ih => exact ih _ (tokStep_tokens_ne s r h)

/-- A character held in the tokens or in `cur` after one iteration was held
before it, or is the rune just read; and a blank just read is only kept inside
quotes. -/
theorem tokStep_occ (s : TokState) (r c : Char)
    (h : (∃ t ∈ (tokStep s r).tokens, c ∈ t) ∨ c ∈ (tokStep s r).cur) :
    ((∃ t ∈ s.tokens, c ∈ t) ∨ c ∈ s.cur) ∨
      (c = r ∧ (isBlank r = true → s.inQuotes = true)) := by
  unfold tokStep at h
  split_ifs at h with h1 h2 h3 h4 h5 h6
  · simp only [List.mem_append, List.mem_singleton] at h
    rcases h with h | h | h
    · exact Or.inl (Or.inl h)
    · exact Or.inl (Or.inr h)
    · exact Or.inr ⟨h, fun _ => h2⟩
  · simp only [List.mem_append, List.mem_singleton, List.not_mem_nil, or_false] at h
    obtain ⟨t, ht, hc⟩ := h
    rcases ht with ht | ht
    · exact Or.inl (Or.inl ⟨t, ht, hc⟩)
    · exact Or.inl (Or.inr (ht ▸ hc))
  · exact Or.inl h
  · exact Or.inl h
  · simp only [List.mem_append, List.mem_singleton] at h
    rcases h with h | h | h
    · exact Or.inl (Or.inl h)
    · exact Or.inl (Or.inr h)
    · exact Or.inr ⟨h, fun hb => absurd hb h1⟩
  · exact Or.inl h
  · simp only [List.mem_append, List.mem_singleton] at h
    rcases h with h | h | h
    · exact Or.inl (Or.inl h)
    · exact Or.inl (Or.inr h)
    · exact Or.inr ⟨h, fun hb => absurd hb h1⟩

/-- Every blank held in the tokens or in `cur` after the loop on `line` was
read at a place of the line where the loop was inside quotes. -/
theorem foldl_blank_quoted (line : Str) (c : Char) (hc : isBlank c = true)
    (h : (∃ t ∈ (line.foldl tokStep TokState.init).tokens, c ∈ t) ∨
      c ∈ (line.foldl tokStep TokState.init).cur) :
    ∃ pre post, line = pre ++ c :: post ∧
      (pre.foldl tokStep TokState.init).inQuotes = true := by
  induction line using List.reverseRecOn with
  | nil =>
    simp [TokState.init] at h
  | append_singleton l r ih =>
    rw [List.foldl_append] at h
    simp only [List.foldl_cons, List.foldl_nil] at h
    rcases tokStep_occ _ r c h with hold | ⟨hcr, hq⟩
    · obtain ⟨pre, post, hl, hin⟩ := ih hold
      exact ⟨pre, post ++ [r], by rw [hl]; simp, hin⟩
    · refine ⟨l, [], by rw [hcr], hq (hcr ▸ hc)⟩

/-- C20. Tokens are never empty: every token `tokenize` returns is non-empty,
so no token among those handed to `parseArgs` (the tokens after the first `n`)
is the empty string its loop skips; and a space or tab inside a token was read
at a place of the line where the loop was inside a quoted span. -/
theorem tokens_nonempty (line : Str) :
    (∀ t ∈ tokenize line, t ≠ []) ∧
    (∀ n, ∀ t ∈ (tokenize line).drop n, t ≠ []) ∧
    (∀ t ∈ tokenize line, ∀ c ∈ t, isBlank c = true →
      ∃ pre post, line = pre ++ c :: post ∧
        (pre.foldl tokStep TokState.init).inQuotes = true) := by
  have hne : ∀ t ∈ tokenize line, t ≠ [] := by
    intro t ht
    unfold tokenize TokState.finish at ht
    have hinv := foldl_tokens_ne line TokState.init (by simp [TokState.init])
    split_ifs at ht with h1
    · simp only [List.mem_append, List.mem_singleton] at ht
      rcases ht with ht | ht
      · exact hinv t ht
      · rw [ht]
        exact List.ne_nil_of_length_pos h1
    · exact hinv t ht
  refine ⟨hne, fun n t ht => hne t (List.mem_of_mem_drop ht), ?_⟩
  intro t ht c hct hc
  apply foldl_blank_quoted line c hc
  unfold tokenize TokState.finish at ht
  split_ifs at ht with h1
  · simp only [List.mem_append, List.mem_singleton] at ht
    rcases ht with ht | ht
    · exact Or.inl ⟨t, ht, hct⟩
    · exact Or.inr (ht ▸ hct)
  · exact Or.inl ⟨t, ht, hct⟩

/-- Instance of C20: an empty quoted string standing alone gives no token, with
either quote character, and the only token with a blank is a quoted one. -/
theorem tokens_nonempty_witness :
    tokenize ("a ".toList ++ [dquote, dquote] ++ " b".toList) = ["a".toList, "b".toList] ∧
    tokenize ("a ".toList ++ [squote, squote] ++ " b".toList) = ["a".toList, "b".toList] ∧
    tokenize [dquote, dquote] = [] ∧
    (∀ t ∈ tokenize ("a ".toList ++ [dquote, dquote] ++ " b".toList), t ≠ []) :=
  ⟨by decide, by decide, by decide,
    (tokens_nonempty ("a ".toList ++ [dquote, dquote] ++ " b".toList)).1⟩

/-- C18 as stated fails on an earlier field that cannot be set: with `name=x`
and `limit=abc`, binding fails on `Limit`, and the unexported text field `name`
before it, whose key is present, still holds the empty string. -/
theorem bindArgs_first_failure_counterexample :
    parseArgs Char.toLower ["name=x".toList, "limit=abc".toList] "name".toList =
      some "x".toList ∧
    bindArgs Char.toLower hiddenThenLimit
        (parseArgs Char.toLower ["name=x".toList, "limit=abc".toList]) =
      (hiddenThenLimit, some (.invalidInt "limit".toList "abc".toList)) := by
  decide

/-! ## `maskKey` -/

theorem slice_prefix (k : Bytes) (m : Nat) (h : m ≤ k.length) :
    slice k 0 (m : Int) = some (k.take m) := by
  have h2 : (m : Int) ≤ (k.length : Int) := by exact_mod_cast h
  simp [slice, h2]

theorem slice_suffix (k : Bytes) (m : Nat) (h : m ≤ k.length) :
    slice k ((k.length : Int) - (m : Int)) (k.length : Int) = some (k.drop (k.length - m)) := by
  have h2 : (m : Int) ≤ (k.length : Int) := by exact_mod_cast h
  have h3 : ((k.length : Int) - (m : Int)).toNat = k.length - m := by omega
  have h4 : (0 : Int) ≤ (k.length : Int) - (m : Int) := by omega
  simp [slice, h3, h4]

/-- The three branches of `maskKey`; no slice expression panics. -/
theorem maskKey_cases (k : Bytes) :
    (k.length ≤ 4 → maskKey k = some k) ∧
    (5 ≤ k.length → k.length ≤ 8 → maskKey k = some (k.take 2 ++ dots)) ∧
    (8 < k.length → maskKey k = some (k.take 4 ++ dots ++ k.drop (k.length - 4))) := by
  refine ⟨fun h => ?_, fun h1 h2 => ?_, fun h => ?_⟩
  · unfold maskKey
    by_cases hk : k = []
    · simp [hk]
    · simp [hk, h]
  · have hk : k ≠ [] := by
      intro e
      rw [e] at h1
      simp at h1
    have h4 : ¬ k.length ≤ 4 := by omega
    have hs := slice_prefix k 2 (by omega)
    simp only [Nat.cast_ofNat] at hs
    simp only [maskKey, hk, h4, h2, if_false, if_true, hs]
  · have hk : k ≠ [] := by
      intro e
      rw [e] at h
      simp at h
    have h4 : ¬ k.length ≤ 4 := by omega
    have h8 : ¬ k.length ≤ 8 := by omega
    have hs1 := slice_prefix k 4 (by omega)
    have hs2 := slice_suffix k 4 (by omega)
    simp only [Nat.cast_ofNat] at hs1 hs2
    simp only [maskKey, hk, h4, h8, if_false, hs1, hs2]

/-- The keys longer than 4 bytes that `maskKey` returns as they are: the keys
that already have the form of a masked key. -/
theorem maskKey_fixed (k : Bytes) (h : 4 < k.length) :
    maskKey k = some k ↔
      (k.length = 5 ∧ k.drop 2 = dots) ∨ (k.length = 11 ∧ (k.drop 4).take 3 = dots) := by
  obtain ⟨-, hmid, hlong⟩ := maskKey_cases k
  by_cases h8 : k.length ≤ 8
  · rw [hmid (by omega) h8, Option.some.injEq]
    have hsplit : k.take 2 ++ dots = k ↔ k.drop 2 = dots := by
      constructor
      · intro e
        have e2 : k.take 2 ++ dots = k.take 2 ++ k.drop 2 := by
          rw [List.take_append_drop]; exact e
        exact (List.append_cancel_left e2).symm
      · intro e
        rw [← e, List.take_append_drop]
    rw [hsplit]
    constructor
    · intro e
      left
      refine ⟨?_, e⟩
      have hl := congrArg List.length e
      simp only [List.length_drop, dots, List.length_cons, List.length_nil] at hl
      omega
    · rintro (⟨-, e⟩ | ⟨e, -⟩)
      · exact e
      · omega
  · rw [hlong (by omega), Option.some.injEq]
    constructor
    · intro e
      have hl := congrArg List.length e
      simp only [List.length_append, List.length_take, List.length_drop, dots,
        List.length_cons, List.length_nil] at hl
      have hn : k.length = 11 := by omega
      right
      refine ⟨hn, ?_⟩
      have e2 : k.take 4 ++ (dots ++ k.drop (k.length - 4)) = k.take 4 ++ k.drop 4 := by
        rw [List.take_append_drop, ← List.append_assoc]; exact e
      have e3 := List.append_cancel_left e2
      rw [← e3]
      simp [dots]
    · rintro (⟨e, -⟩ | ⟨hn, e⟩)
      · omega
      · have e4 : k.drop 4 = dots ++ k.drop (k.length - 4) := by
          have := (List.take_append_drop 3 (k.drop 4)).symm
          rw [e, List.drop_drop] at this
          rw [hn]
          simpa using this
        rw [List.append_assoc, ← e4, List.take_append_drop]

/-- C22, as the code has it. `maskKey` never panics (no slice index is out of
range) and is defined by the byte length `n` of the key: the key as it is when
`n <= 4` (the empty key included), the first 2 bytes and `...` when
`5 <= n <= 8`, the first 4 bytes, `...` and the last 4 bytes when `n > 8`; for
a key longer than 4 bytes the result is a prefix and a suffix of the key, of at
most 8 bytes together, around `...`, and it equals the key exactly when the key
already has that form (5 bytes ending in `...`, or 11 bytes with `...` in the
middle). -/
theorem maskKey_spec (k : Bytes) :
    (∃ r, maskKey k = some r) ∧
    (k.length ≤ 4 → maskKey k = some k) ∧
    (5 ≤ k.length → k.length ≤ 8 → maskKey k = some (k.take 2 ++ dots)) ∧
    (8 < k.length → maskKey k = some (k.take 4 ++ dots ++ k.drop (k.length - 4))) ∧
    (4 < k.length →
      (∃ a b, maskKey k = some (a ++ dots ++ b) ∧ a <+: k ∧ b <:+ k ∧
        a.length + b.length ≤ 8) ∧
      (maskKey k = some k ↔
        (k.length = 5 ∧ k.drop 2 = dots) ∨ (k.length = 11 ∧ (k.drop 4).take 3 = dots))) := by
  obtain ⟨hshort, hmid, hlong⟩ := maskKey_cases k
  refine ⟨?_, hshort, hmid, hlong, fun h => ⟨?_, maskKey_fixed k h⟩⟩
  · by_cases h4 : k.length ≤ 4
    · exact ⟨_, hshort h4⟩
    · by_cases h8 : k.length ≤ 8
      · exact ⟨_, hmid (by omega) h8⟩
      · exact ⟨_, hlong (by omega)⟩
  · by_cases h8 : k.length ≤ 8
    · refine ⟨k.take 2, [], ?_, List.take_prefix _ _, List.nil_suffix, ?_⟩
      · rw [hmid (by omega) h8]
        simp
      · simp only [List.length_take, List.length_nil]
        omega
    · refine ⟨k.take 4, k.drop (k.length - 4), hlong (by omega), List.take_prefix _ _,
        List.drop_suffix _ _, ?_⟩
      simp only [List.length_take, List.length_drop]
      omega

/-- C22 as stated fails: the 5-byte key `ab...` and the 11-byte key
`abcd...efgh` are longer than 4 bytes and `maskKey` returns them unchanged. -/
theorem maskKey_counterexample :
    (ascii "ab...").length = 5 ∧ maskKey (ascii "ab...") = some (ascii "ab...") ∧
    (ascii "abcd...efgh").length = 11 ∧
    maskKey (ascii "abcd...efgh") = some (ascii "abcd...efgh") := by
  decide

/-- Instance of the amended C22: a 3-byte key, a 6-byte key and a 12-byte
key. -/
theorem maskKey_spec_witness :
    maskKey (ascii "abc") = some (ascii "abc") ∧
    maskKey (ascii "abcdef") = some (ascii "ab...") ∧
    maskKey (ascii "abcdefghijkl") = some (ascii "abcd...ijkl") ∧
    maskKey [] = some [] :=
  ⟨(maskKey_spec (ascii "abc")).2.1 (by decide), by decide, by decide, by decide⟩

/-! ## Quoted values, end to end -/

/-- After a command part that ends outside quotes and a space, a key, `=` and
a quoted value make one token: the key, `=` and the value without its quotes. -/
theorem tokenize_quoted_arg (cmdLine k v : Str) (q : Char) (hq : isQuote q = true)
    (hqv : q ∉ v) (hk : ∀ c ∈ k, isBlank c = false ∧ isQuote c = false)
    (hs : (cmdLine.foldl tokStep TokState.init).inQuotes = false) :
    tokenize (cmdLine ++ [space] ++ k ++ [eqSign] ++ [q] ++ v ++ [q]) =
      tokenize cmdLine ++ [k ++ [eqSign] ++ v] := by
  have hsp : isBlank space = true := by decide
  have hword : ∀ c ∈ k ++ [eqSign], isBlank c = false ∧ isQuote c = false := by
    intro c hc
    rcases List.mem_append.1 hc with hc | hc
    · exact hk c hc
    · rw [List.mem_singleton.1 hc]
      exact ⟨by decide, by decide⟩
  have e : cmdLine ++ [space] ++ k ++ [eqSign] ++ [q] ++ v ++ [q] =
      cmdLine ++ ([space] ++ ((k ++ [eqSign]) ++ (q :: v ++ [q]))) := by simp
  unfold tokenize
  rw [e, List.foldl_append, List.foldl_append, List.foldl_append]
  simp only [List.foldl_cons, List.foldl_nil]
  generalize cmdLine.foldl tokStep TokState.init = s at hs
  rw [tokStep_blank s hsp hs]
  by_cases hc : s.cur = []
  · rw [if_pos hc, foldl_word _ s hword, foldl_quoted v _ q hq (by simpa using hs) hqv]
    simp [TokState.finish, hc]
  · rw [if_neg hc, foldl_word _ _ hword, foldl_quoted v _ q hq (by simpa using hs) hqv]
    have hpos : 0 < s.cur.length := List.length_pos.2 hc
    simp [TokState.finish, hpos]

/-- The map of the single token `k=v`, for a key without `=` and a value
without quote characters: `lower(k)` is bound to `v`, and nothing else. -/
theorem parseArgs_single (lower : Char → Char) (k v : Str) (hk : eqSign ∉ k)
    (hv : ∀ c ∈ v, isQuote c = false) :
    parseArgs lower [k ++ [eqSign] ++ v] = KV.empty.set (ToLower lower k) v := by
  have e : k ++ [eqSign] ++ v = k ++ eqSign :: v := by simp
  have hmem : eqSign ∈ k ++ eqSign :: v := by simp
  have hne : k ++ eqSign :: v ≠ [] := by simp
  have htrim : Trim v isQuote = v := by
    have := Trim_eq isQuote [] v [] (by simp) (by simp)
      (fun c hc => hv c (List.mem_of_mem_head? hc))
      (fun c hc => hv c (List.mem_of_mem_getLast? hc))
    simpa using this
  have h := parseArgs_concat lower [] (k ++ [eqSign] ++ v)
  simp only [List.nil_append] at h
  rw [h, e]
  unfold parseArgsStep
  rw [if_neg hne, if_pos ((contains_eq_true_iff _ _).2 hmem)]
  simp only [SplitN2_append eqSign k v hk, htrim]
  rfl

/-- Binding a struct with the map that holds one key: the only field with that
binding key, a text field that can be set, gets the value, and nothing else
changes. -/
theorem bindFields_single (lower : Char → Char) (key v : Str) (pre post : List Field)
    (f : Field) (hkind : f.kind = .string) (hset : f.canSet = true)
    (hkey : bindKey lower f = key) (huniq : ∀ g ∈ pre ++ post, bindKey lower g ≠ key) :
    bindFields lower (KV.empty.set key v) (pre ++ f :: post) =
      (pre ++ { f with val := .str v } :: post, none) := by
  have habs : ∀ fs : List Field, (∀ g ∈ fs, bindKey lower g ≠ key) →
      bindFields lower (KV.empty.set key v) fs = (fs, none) := by
    intro fs hfs
    exact bindFields_absent lower _ fs (fun g hg => by simp [KV.set, KV.empty, hfs g hg])
  have hpre := habs pre (fun g hg => huniq g (List.mem_append_left _ hg))
  have hpost := habs post (fun g hg => huniq g (List.mem_append_right _ hg))
  rw [bindFields_append lower _ pre (f :: post) (by rw [hpre]), hpre, bindFields_cons, hkey]
  have hkv : (KV.empty.set key v) key = some v := by simp [KV.set]
  rw [hkv]
  simp only [hset, Bool.true_eq_false, if_false]
  rw [bindField_string v hkind, hpost]
  simp [hset]

/-- From the line to the bound field: for a command part ending outside
quotes, a key that is a plain word (no blank, quote or `=`), a value without
quote characters, and a matched definition that consumes the command tokens and
whose value has exactly one field with that key, a text field that can be set,
`Parse` returns that definition and its value with the field set to the value. -/
theorem Parse_quoted_value (lower : Char → Char) (p : Parser) (cmdLine k v : Str) (q : Char)
    (best : Command) (n : Str) (pre post : List Field) (f : Field)
    (hq : isQuote q = true) (hv : ∀ c ∈ v, isQuote c = false)
    (hk : ∀ c ∈ k, isBlank c = false ∧ isQuote c = false ∧ c ≠ eqSign)
    (hs : (cmdLine.foldl tokStep TokState.init).inQuotes = false)
    (hbest : (findBest lower p.commands (tokenize cmdLine ++ [k ++ [eqSign] ++ v])).1 =
      some best)
    (hlen : best.Path.length = (tokenize cmdLine).length)
    (hshape : best.New () = .ptrStruct ⟨n, pre ++ f :: post⟩)
    (hkind : f.kind = .string) (hset : f.canSet = true)
    (hkey : bindKey lower f = ToLower lower k)
    (huniq : ∀ g ∈ pre ++ post, bindKey lower g ≠ ToLower lower k) :
    tokenize (cmdLine ++ [space] ++ k ++ [eqSign] ++ [q] ++ v ++ [q]) =
        tokenize cmdLine ++ [k ++ [eqSign] ++ v] ∧
    p.Parse lower (cmdLine ++ [space] ++ k ++ [eqSign] ++ [q] ++ v ++ [q]) =
      .ok ⟨best, .ptrStruct ⟨n, pre ++ { f with val := .str v } :: post⟩⟩ := by
  have hqv : q ∉ v := fun hm => by
    have := hv q hm
    rw [hq] at this
    cases this
  have htok := tokenize_quoted_arg cmdLine k v q hq hqv (fun c hc => ⟨(hk c hc).1, (hk c hc).2.1⟩)
    hs
  have hkeq : eqSign ∉ k := fun hm => (hk eqSign hm).2.2 rfl
  refine ⟨htok, ?_⟩
  have hne : tokenize (cmdLine ++ [space] ++ k ++ [eqSign] ++ [q] ++ v ++ [q]) ≠ [] := by
    rw [htok]
    simp
  obtain ⟨-, -, -, hblen, -⟩ := findBest_some lower _ _ best hbest
  rw [Parse_cons lower p _ hne, htok]
  simp only [hbest, hblen, hshape, hlen, List.drop_left, bindArgs,
    parseArgs_single lower k v hkeq hv,
    bindFields_single lower (ToLower lower k) v pre post f hkind hset hkey huniq]

/-- C21. Quoted values survive end to end. In general: after a command part
that ends outside quotes, a key `k` that is a plain word, `=` and a value `v`
without quote characters between two quotes of either kind make the single
token `k=v`, and `Parse` binds `v`, unchanged, to the text field whose binding
key is the lower-cased `k`, when the matched definition consumes the command
tokens and that field can be set and is the only one with that key. For the
commands of `registerCommands`: for every command whose value has text fields,
every `cli` tag `k` of such a field, either quote character and every `v`
without quote characters (spaces, tabs and `=` allowed), `Parse` of
`<command> k=<quote>v<quote>` returns that command's definition and its value
with the field `k` set to exactly `v` and the other fields untouched. -/
theorem quoted_values_survive :
    (∀ (lower : Char → Char) (p : Parser) (cmdLine k v : Str) (q : Char) (best : Command)
      (n : Str) (pre post : List Field) (f : Field),
      isQuote q = true → (∀ c ∈ v, isQuote c = false) →
      (∀ c ∈ k, isBlank c = false ∧ isQuote c = false ∧ c ≠ eqSign) →
      (cmdLine.foldl tokStep TokState.init).inQuotes = false →
      (findBest lower p.commands (tokenize cmdLine ++ [k ++ [eqSign] ++ v])).1 = some best →
      best.Path.length = (tokenize cmdLine).length →
      best.New () = .ptrStruct ⟨n, pre ++ f :: post⟩ →
      f.kind = .string → f.canSet = true → bindKey lower f = ToLower lower k →
      (∀ g ∈ pre ++ post, bindKey lower g ≠ ToLower lower k) →
      tokenize (cmdLine ++ [space] ++ k ++ [eqSign] ++ [q] ++ v ++ [q]) =
          tokenize cmdLine ++ [k ++ [eqSign] ++ v] ∧
        p.Parse lower (cmdLine ++ [space] ++ k ++ [eqSign] ++ [q] ++ v ++ [q]) =
          .ok ⟨best, .ptrStruct ⟨n, pre ++ { f with val := .str v } :: post⟩⟩) ∧
    (∀ e ∈ cliTextKeys, ∀ (q : Char) (v : Str), isQuote q = true →
      (∀ c ∈ v, isQuote c = false) →
      ∃ (best : Command) (n : Str) (pre : List Field) (f : Field) (post : List Field),
        best.Path = splitRuns isSpace e.1 ∧
        best.New () = .ptrStruct ⟨n, pre ++ f :: post⟩ ∧ f.cli = e.2 ∧
        cliParser.Parse Char.toLower (e.1 ++ [space] ++ e.2 ++ [eqSign] ++ [q] ++ v ++ [q]) =
          .ok ⟨best, .ptrStruct ⟨n, pre ++ { f with val := .str v } :: post⟩⟩) := by
  refine ⟨fun lower p cmdLine k v q best n pre post f hq hv hk hs hbest hlen hshape hkind hset
    hkey huniq => Parse_quoted_value lower p cmdLine k v q best n pre post f hq hv hk hs hbest
      hlen hshape hkind hset hkey huniq, ?_⟩
  intro e he q v hq hv
  simp only [cliTextKeys, List.mem_cons, List.mem_singleton, List.not_mem_nil, or_false] at he
  rcases he with rfl | rfl | rfl | rfl | rfl | rfl | rfl | rfl | rfl | rfl | rfl | rfl | rfl | rfl | rfl | rfl
  · exact ⟨⟨["table".toList], fun _ => TableInfo⟩, "TableInfo".toList, [],
      textField "Name" "name", [], rfl, rfl, rfl,
      (Parse_quoted_value Char.toLower cliParser "table".toList "name".toList v q
        ⟨["table".toList], fun _ => TableInfo⟩ "TableInfo".toList []
        [] (textField "Name" "name") hq hv (by decide) (by decide) rfl (by decide) rfl rfl rfl
        (by decide) (by decide)).2⟩
  · exact ⟨⟨["s3".toList, "add".toList], fun _ => S3Add⟩, "S3Add".toList, [],
      textField "Name" "name", [], rfl, rfl, rfl,
      (Parse_quoted_value Char.toLower cliParser "s3 add".toList "name".toList v q
        ⟨["s3".toList, "add".toList], fun _ => S3Add⟩ "S3Add".toList []
        [] (textField "Name" "name") hq hv (by decide) (by decide) rfl (by decide) rfl rfl rfl
        (by decide) (by decide)).2⟩
  · exact ⟨⟨["s3".toList, "delete".toList], fun _ => S3Delete⟩, "S3Delete".toList, [],
      textField "Name" "name", [], rfl, rfl, rfl,
      (Parse_quoted_value Char.toLower cliParser "s3 delete".toList "name".toList v q
        ⟨["s3".toList, "delete".toList], fun _ => S3Delete⟩ "S3Delete".toList []
        [] (textField "Name" "name") hq hv (by decide) (by decide) rfl (by decide) rfl rfl rfl
        (by decide) (by decide)).2⟩
  · exact ⟨⟨["head".toList], fun _ => Head⟩, "Head".toList, [],
      textField "Table" "table", [textField "Prefix" "prefix", textField "From" "from", textField "To" "to", intField "Limit" "limit"], rfl, rfl, rfl,
      (Parse_quoted_value Char.toLower cliParser "head".toList "table".toList v q
        ⟨["head".toList], fun _ => Head⟩ "Head".toList []
        [textField "Prefix" "prefix", textField "From" "from", textField "To" "to", intField "Limit" "limit"] (textField "Table" "table") hq hv (by decide) (by decide) rfl (by decide) rfl rfl rfl
        (by decide) (by decide)).2⟩
  · exact ⟨⟨["head".toList], fun _ => Head⟩, "Head".toList, [textField "Table" "table"],
      textField "Prefix" "prefix", [textField "From" "from", textField "To" "to", intField "Limit" "limit"], rfl, rfl, rfl,
      (Parse_quoted_value Char.toLower cliParser "head".toList "prefix".toList v q
        ⟨["head".toList], fun _ => Head⟩ "Head".toList [textField "Table" "table"]
        [textField "From" "from", textField "To" "to", intField "Limit" "limit"] (textField "Prefix" "prefix") hq hv (by decide) (by decide) rfl (by decide) rfl rfl rfl
        (by decide) (by decide)).2⟩
  · exact ⟨⟨["head".toList], fun _ => Head⟩, "Head".toList, [textField "Table" "table", textField "Prefix" "prefix"],
      textField "From" "from", [textField "To" "to", intField "Limit" "limit"], rfl, rfl, rfl,
      (Parse_quoted_value Char.toLower cliParser "head".toList "from".toList v q
        ⟨["head".toList], fun _ => Head⟩ "Head".toList [textField "Table" "table", textField "Prefix" "prefix"]
        [textField "To" "to", intField "Limit" "limit"] (textField "From" "from") hq hv (by decide) (by decide) rfl (by decide) rfl rfl rfl
        (by decide) (by decide)).2⟩
  · exact ⟨⟨["head".toList], fun _ => Head⟩, "Head".toList, [textField "Table" "table", textField "Prefix" "prefix", textField "From" "from"],
      textField "To" "to", [intField "Limit" "limit"], rfl, rfl, rfl,
      (Parse_quoted_value Char.toLower cliParser "head".toList "to".toList v q
        ⟨["head".toList], fun _ => Head⟩ "Head".toList [textField "Table" "table", textField "Prefix" "prefix", textField "From" "from"]
        [intField "Limit" "limit"] (textField "To" "to") hq hv (by decide) (by decide) rfl (by decide) rfl rfl rfl
        (by decide) (by decide)).2⟩
  · exact ⟨⟨["query".toList], fun _ => Query⟩, "Query".toList, [],
      textField "Table" "table", [textField "Prefix" "prefix", textField "From" "from", textField "To" "to", intField "Limit" "limit"], rfl, rfl, rfl,
      (Parse_quoted_value Char.toLower cliParser "query".toList "table".toList v q
        ⟨["query".toList], fun _ => Query⟩ "Query".toList []
        [textField "Prefix" "prefix", textField "From" "from", textField "To" "to", intField "Limit" "limit"] (textField "Table" "table") hq hv (by decide) (by decide) rfl (by decide) rfl rfl rfl
        (by decide) (by decide)).2⟩
  · exact ⟨⟨["query".toList], fun _ => Query⟩, "Query".toList, [textField "Table" "table"],
      textField "Prefix" "prefix", [textField "From" "from", textField "To" "to", intField "Limit" "limit"], rfl, rfl, rfl,
      (Parse_quoted_value Char.toLower cliParser "query".toList "prefix".toList v q
        ⟨["query".toList], fun _ => Query⟩ "Query".toList [textField "Table" "table"]
        [textField "From" "from", textField "To" "to", intField "Limit" "limit"] (textField "Prefix" "prefix") hq hv (by decide) (by decide) rfl (by decide) rfl rfl rfl
        (by decide) (by decide)).2⟩
  · exact ⟨⟨["query".toList], fun _ => Query⟩, "Query".toList, [textField "Table" "table", textField "Prefix" "prefix"],
      textField "From" "from", [textField "To" "to", intField "Limit" "limit"], rfl, rfl, rfl,
      (Parse_quoted_value Char.toLower cliParser "query".toList "from".toList v q
        ⟨["query".toList], fun _ => Query⟩ "Query".toList [textField "Table" "table", textField "Prefix" "prefix"]
        [textField "To" "to", intField "Limit" "limit"] (textField "From" "from") hq hv (by decide) (by decide) rfl (by decide) rfl rfl rfl
        (by decide) (by decide)).2⟩
  · exact ⟨⟨["query".toList], fun _ => Query⟩, "Query".toList, [textField "Table" "table", textField "Prefix" "prefix", textField "From" "from"],
      textField "To" "to", [intField "Limit" "limit"], rfl, rfl, rfl,
      (Parse_quoted_value Char.toLower cliParser "query".toList "to".toList v q
        ⟨["query".toList], fun _ => Query⟩ "Query".toList [textField "Table" "table", textField "Prefix" "prefix", textField "From" "from"]
        [intField "Limit" "limit"] (textField "To" "to") hq hv (by decide) (by decide) rfl (by decide) rfl rfl rfl
        (by decide) (by decide)).2⟩
  · exact ⟨⟨["delete".toList], fun _ => Delete⟩, "Delete".toList, [],
      textField "Table" "table", [textField "Prefix" "prefix", textField "From" "from", textField "To" "to", intField "Limit" "limit"], rfl, rfl, rfl,
      (Parse_quoted_value Char.toLower cliParser "delete".toList "table".toList v q
        ⟨["delete".toList], fun _ => Delete⟩ "Delete".toList []
        [textField "Prefix" "prefix", textField "From" "from", textField "To" "to", intField "Limit" "limit"] (textField "Table" "table") hq hv (by decide) (by decide) rfl (by decide) rfl rfl rfl
        (by decide) (by decide)).2⟩
  · exact ⟨⟨["delete".toList], fun _ => Delete⟩, "Delete".toList, [textField "Table" "table"],
      textField "Prefix" "prefix", [textField "From" "from", textField "To" "to", intField "Limit" "limit"], rfl, rfl, rfl,
      (Parse_quoted_value Char.toLower cliParser "delete".toList "prefix".toList v q
        ⟨["delete".toList], fun _ => Delete⟩ "Delete".toList [textField "Table" "table"]
        [textField "From" "from", textField "To" "to", intField "Limit" "limit"] (textField "Prefix" "prefix") hq hv (by decide) (by decide) rfl (by decide) rfl rfl rfl
        (by decide) (by decide)).2⟩
  · exact ⟨⟨["delete".toList], fun _ => Delete⟩, "Delete".toList, [textField "Table" "table", textField "Prefix" "prefix"],
      textField "From" "from", [textField "To" "to", intField "Limit" "limit"], rfl, rfl, rfl,
      (Parse_quoted_value Char.toLower cliParser "delete".toList "from".toList v q
        ⟨["delete".toList], fun _ => Delete⟩ "Delete".toList [textField "Table" "table", textField "Prefix" "prefix"]
        [textField "To" "to", intField "Limit" "limit"] (textField "From" "from") hq hv (by decide) (by decide) rfl (by decide) rfl rfl rfl
        (by decide) (by decide)).2⟩
  · exact ⟨⟨["delete".toList], fun _ => Delete⟩, "Delete".toList, [textField "Table" "table", textField "Prefix" "prefix", textField "From" "from"],
      textField "To" "to", [intField "Limit" "limit"], rfl, rfl, rfl,
      (Parse_quoted_value Char.toLower cliParser "delete".toList "to".toList v q
        ⟨["delete".toList], fun _ => Delete⟩ "Delete".toList [textField "Table" "table", textField "Prefix" "prefix", textField "From" "from"]
        [intField "Limit" "limit"] (textField "To" "to") hq hv (by decide) (by decide) rfl (by decide) rfl rfl rfl
        (by decide) (by decide)).2⟩
  · exact ⟨⟨["config".toList, "set".toList], fun _ => SetConfig⟩, "SetConfig".toList, [],
      textField "Addr" "addr", [], rfl, rfl, rfl,
      (Parse_quoted_value Char.toLower cliParser "config set".toList "addr".toList v q
        ⟨["config".toList, "set".toList], fun _ => SetConfig⟩ "SetConfig".toList []
        [] (textField "Addr" "addr") hq hv (by decide) (by decide) rfl (by decide) rfl rfl rfl
        (by decide) (by decide)).2⟩

/-- Instance of C21: `table name="my table"` yields a `TableInfo` whose `Name`
is `my table`, with double or single quotes. -/
theorem quoted_values_survive_witness :
    outcome (cliParser.Parse Char.toLower
        ("table name=".toList ++ [dquote] ++ "my table".toList ++ [dquote])) =
      .ok (["table".toList],
        .ptrStruct ⟨"TableInfo".toList,
          [⟨"Name".toList, "name".toList, .string, true, .str "my table".toList⟩]⟩) ∧
    (∃ (best : Command) (n : Str) (pre : List Field) (f : Field) (post : List Field),
      best.Path = splitRuns isSpace "table".toList ∧
      best.New () = .ptrStruct ⟨n, pre ++ f :: post⟩ ∧ f.cli = "name".toList ∧
      cliParser.Parse Char.toLower ("table".toList ++ [space] ++ "name".toList ++ [eqSign] ++
          [squote] ++ "a=b c".toList ++ [squote]) =
        .ok ⟨best, .ptrStruct ⟨n, pre ++ { f with val := .str "a=b c".toList } :: post⟩⟩) :=
  ⟨rfl, quoted_values_survive.2 ("table".toList, "name".toList) (by decide) squote
    "a=b c".toList (by decide) (by decide)⟩

/-! ## White space other than space and tab -/

/-- C3 as stated fails: a line that is a single carriage return, or a single
line feed, consists only of white space, yet `tokenize` returns it as a token
and `Parse` fails with "unknown command", not with "empty input". -/
theorem Parse_empty_input_counterexample :
    isSpace (Char.ofNat 13) = true ∧ isSpace (Char.ofNat 10) = true ∧
    tokenize [Char.ofNat 13] = [[Char.ofNat 13]] ∧
    tokenize [Char.ofNat 10] = [[Char.ofNat 10]] ∧
    cliParser.Parse Char.toLower [Char.ofNat 13] =
      .error (.unknownCommand [Char.ofNat 13]) ∧
    cliParser.Parse Char.toLower [Char.ofNat 10] =
      .error (.unknownCommand [Char.ofNat 10]) :=
  ⟨by decide, by decide, by decide, by decide, rfl, rfl⟩

/-- C4 as stated fails: the quote-free line `a`, line feed, `b` is one token
for `tokenize`, while splitting it on runs of white space gives the two words
`a` and `b`. -/
theorem tokenize_no_quotes_counterexample :
    (∀ c ∈ "a".toList ++ [Char.ofNat 10] ++ "b".toList, isQuote c = false) ∧
    tokenize ("a".toList ++ [Char.ofNat 10] ++ "b".toList) =
      ["a".toList ++ [Char.ofNat 10] ++ "b".toList] ∧
    splitRuns isSpace ("a".toList ++ [Char.ofNat 10] ++ "b".toList) =
      ["a".toList, "b".toList] ∧
    tokenize ("a".toList ++ [Char.ofNat 10] ++ "b".toList) ≠
      splitRuns isSpace ("a".toList ++ [Char.ofNat 10] ++ "b".toList) := by
  decide

end FlowDB
